import Mathlib

/-!
A shallow embedding of the `validation` Go package (annotation-driven struct
validation): the rule compiler (`util.go`) and the execution engine / error
model (`Validation`, `Result`, `Error`).  Go strings are modelled as `List
Char` (one `Char` per byte; the annotations exercised here are ASCII), Go
maps as association lists, and the external `regexp` library as an abstract
validity predicate carried in an environment.  The built-in predicate bodies
(`Required`, `Min`, ... — a file of the repository that only its callers
show) are abstract: an environment supplies each rule's satisfaction test,
default message and limit value, while arities and parameter types are
transcribed from the method signatures visible in the source.
-/

namespace validation

/-- Go strings, byte-for-byte, as lists of characters. -/
abbrev Str := List Char

/-- Coerce a Lean string literal to the `Str` model. -/
def str (s : String) : Str := s.data

/-- ASCII whitespace, the fragment of `unicode.IsSpace` relevant to
annotation strings (all annotations in scope are ASCII). -/
def isSpaceChar (c : Char) : Bool :=
  c = ' ' ∨ c = '\t' ∨ c = '\n' ∨ c = '\x0b' ∨ c = '\x0c' ∨ c = '\r'

/-- Go `strings.TrimSpace`: drop whitespace from both ends. -/
def trimSpace (s : Str) : Str :=
  ((s.dropWhile isSpaceChar).reverse.dropWhile isSpaceChar).reverse

/-- Go `strings.Split(s, c)` for a one-character separator: the separator is
dropped, and the empty string splits to one empty piece. -/
def splitOnChar (c : Char) : Str → List Str
  | [] => [[]]
  | a :: t =>
    if a = c then [] :: splitOnChar c t
    else
      match splitOnChar c t with
      | [] => [[a]]
      | h :: r => (a :: h) :: r

/-- The pattern `pat` occurs in `s` at position `i`. -/
def OccursAt (s pat : Str) (i : Nat) : Prop := pat.isPrefixOf (s.drop i) = true

instance (s pat : Str) (i : Nat) : Decidable (OccursAt s pat i) := by
  unfold OccursAt; infer_instance

/-- Least `i < n` satisfying `p`. -/
def findBelow (p : Nat → Bool) : Nat → Option Nat
  | 0 => none
  | n + 1 =>
    match findBelow p n with
    | some i => some i
    | none => if p n then some n else none

/-- Greatest `i < n` satisfying `p`. -/
def findLastBelow (p : Nat → Bool) : Nat → Option Nat
  | 0 => none
  | n + 1 => if p n then some n else findLastBelow p n

/-- Go `strings.Index`: position of the first occurrence of `pat` in `s`,
`none` for Go's `-1`. -/
def strIndex (s pat : Str) : Option Nat :=
  findBelow (fun i => pat.isPrefixOf (s.drop i)) (s.length + 1)

/-- Go `strings.LastIndex`: position of the last occurrence of `pat` in `s`. -/
def strLastIndex (s pat : Str) : Option Nat :=
  findLastBelow (fun i => pat.isPrefixOf (s.drop i)) (s.length + 1)

/-- Go `strings.Contains` / `strings.Index(...) >= 0`. -/
def strContains (s pat : Str) : Bool := (strIndex s pat).isSome

/-- `i` is the position of the first occurrence of `pat` in `s`. -/
def FirstOccAt (s pat : Str) (i : Nat) : Prop :=
  i ≤ s.length ∧ OccursAt s pat i ∧ ∀ j < i, ¬ OccursAt s pat j

/-- `i` is the position of the last occurrence of `pat` in `s`. -/
def LastOccAt (s pat : Str) (i : Nat) : Prop :=
  i ≤ s.length ∧ OccursAt s pat i ∧ ∀ j ≤ s.length, i < j → ¬ OccursAt s pat j

instance (s pat : Str) (i : Nat) : Decidable (FirstOccAt s pat i) := by
  unfold FirstOccAt; infer_instance

instance (s pat : Str) (i : Nat) : Decidable (LastOccAt s pat i) := by
  unfold LastOccAt; infer_instance

/-- Go string slicing `s[lo:hi]`. -/
def seg (s : Str) (lo hi : Nat) : Str := (s.take hi).drop lo

/-- All-decimal-digit string to its value; `none` when empty or non-digit. -/
def digitsVal : Str → Option Nat
  | [] => none
  | [c] => if c.isDigit then some (c.toNat - '0'.toNat) else none
  | c :: t =>
    match digitsVal t, c.isDigit with
    | some n, true => some ((c.toNat - '0'.toNat) * 10 ^ t.length + n)
    | _, _ => none

/-- Go `strconv.Atoi` (overflow ignored: Go's 64-bit range is never reached
by the annotation arguments in scope). -/
def atoi (s : Str) : Option Int :=
  match s with
  | '+' :: t => (digitsVal t).map (fun n => (n : Int))
  | '-' :: t => (digitsVal t).map (fun n => -(n : Int))
  | t => (digitsVal t).map (fun n => (n : Int))

/-! ### The registry (`util.go`): `funcs`, `unFuncs`, `AddCustomFunc` -/

/-- Parameter types a rule method declares beyond `(v, obj)`: `reflect.Int`,
`reflect.String`, and `*regexp.Regexp` (the only pointer type `parseParam`
accepts). -/
inductive PType
  | pint
  | pstr
  | pregex
  deriving DecidableEq, Repr

/-- A coerced rule parameter (`[]interface{}` entry): an integer, a string
(also used for the trailing dispatch key), or a compiled regular expression,
carried as its pattern text. -/
inductive Param
  | pint (n : Int)
  | pstr (s : Str)
  | preg (pat : Str)
  deriving DecidableEq, Repr

/-- The distinguishable error values the compiler produces (`fmt.Errorf`
results in the source; carried structurally instead of as formatted text). -/
inductive CompileErr
  | notExist (name : Str)
  | requireParams (name : Str) (n : Int)
  | invalidFunc
  | invalidMatch
  | regexErr (pat : Str)
  | atoiErr (s : Str)
  | unsupported
  | slicePanic
  | paramsNotAdapted
  | invalidName (name : Str)
  | unmodelledDispatch
  deriving DecidableEq, Repr

/-- How a registry entry behaves when dispatched: the nineteen rule methods
all route through `Validation.apply`; `SetError` (also swept up by `init`'s
reflection) and runtime-registered custom functions do not. -/
inductive FImpl
  | validator
  | setErr
  | custom (id : Nat)
  deriving DecidableEq, Repr

/-- A registry entry: the reflected method's total `NumIn` (receiver
included) and the parameter types from `In(2)` onward, as `numIn` and
`trim` consult them. -/
structure FEntry where
  numIn : Nat
  ptypes : List PType
  impl : FImpl
  deriving DecidableEq, Repr

instance {ε α : Type} [DecidableEq ε] [DecidableEq α] :
    DecidableEq (Except ε α) := fun a b =>
  match a, b with
  | .error e1, .error e2 =>
    decidable_of_iff (e1 = e2)
      ⟨fun h => by rw [h], fun h => by injection h⟩
  | .error _, .ok _ => .isFalse (fun h => Except.noConfusion h)
  | .ok _, .error _ => .isFalse (fun h => Except.noConfusion h)
  | .ok a1, .ok a2 =>
    decidable_of_iff (a1 = a2)
      ⟨fun h => by rw [h], fun h => by injection h⟩

/-- The registry, a Go `map[string]reflect.Value` as an association list. -/
abbrev FuncsMap := List (Str × FEntry)

/-- Go map read: first (only) binding of the key. -/
def lookupA (m : FuncsMap) (k : Str) : Option FEntry := List.lookup k m

/-- Go map write `m[k] = v`: replace the existing binding or add one. -/
def insertA (m : FuncsMap) (k : Str) (v : FEntry) : FuncsMap :=
  match m with
  | [] => [(k, v)]
  | (k', v') :: t => if k = k' then (k, v) :: t else (k', v') :: insertA t k v

/-- `unFuncs`: names excluded from the registry at start-up and rejected by
`AddCustomFunc`. -/
def unFuncs : List Str :=
  [str "Clear", str "HasErrors", str "ErrorMap", str "Error",
   str "apply", str "Check", str "Valid", str "NoMatch"]

/-- The registry after `init`: every exported method of `*Validation` not in
`unFuncs`, with `NumIn` and parameter types read off the method signatures.
`NoMatch` is in `unFuncs` and therefore absent; `SetError` is an exported
method not in `unFuncs` and therefore present (with `NumIn = 3`). -/
def funcs0 : FuncsMap :=
  [(str "Alpha", ⟨4, [.pstr, .pstr], .validator⟩),
   (str "AlphaDash", ⟨4, [.pstr, .pstr], .validator⟩),
   (str "AlphaNumeric", ⟨4, [.pstr, .pstr], .validator⟩),
   (str "Base64", ⟨4, [.pstr, .pstr], .validator⟩),
   (str "Email", ⟨4, [.pstr, .pstr], .validator⟩),
   (str "IP", ⟨4, [.pstr, .pstr], .validator⟩),
   (str "Length", ⟨5, [.pint, .pstr, .pstr], .validator⟩),
   (str "Match", ⟨5, [.pregex, .pstr, .pstr], .validator⟩),
   (str "Max", ⟨5, [.pint, .pstr, .pstr], .validator⟩),
   (str "MaxSize", ⟨5, [.pint, .pstr, .pstr], .validator⟩),
   (str "Min", ⟨5, [.pint, .pstr, .pstr], .validator⟩),
   (str "MinSize", ⟨5, [.pint, .pstr, .pstr], .validator⟩),
   (str "Mobile", ⟨4, [.pstr, .pstr], .validator⟩),
   (str "Numeric", ⟨4, [.pstr, .pstr], .validator⟩),
   (str "Phone", ⟨4, [.pstr, .pstr], .validator⟩),
   (str "Range", ⟨6, [.pint, .pint, .pstr, .pstr], .validator⟩),
   (str "Required", ⟨4, [.pstr, .pstr], .validator⟩),
   (str "SetError", ⟨3, [.pstr], .setErr⟩),
   (str "Tel", ⟨4, [.pstr, .pstr], .validator⟩),
   (str "ZipCode", ⟨4, [.pstr, .pstr], .validator⟩)]

/-- `AddCustomFunc(name, f)`: reject `unFuncs` names, otherwise install (or
replace) the entry.  A `CustomFunc` is `func(v, obj, key)`, so the stored
reflected value has `NumIn = 3` and `In(2) = string`; the function itself is
tracked by an abstract handle `id`. -/
def AddCustomFunc (m : FuncsMap) (name : Str) (id : Nat) :
    Except CompileErr FuncsMap :=
  if unFuncs.contains name then .error (.invalidName name)
  else .ok (insertA m name ⟨3, [.pstr], .custom id⟩)

/-! ### Abstract predicate library

The built-in validator structs (`Required`, `Min`, ..., their `IsSatisfied`,
`DefaultMessage`, `GetLimitValue` bodies, and the `MessageTmpls` table) live
in a file of the repository shown here only through its callers; `apply`
touches them solely through the `Validator` interface.  `Env` abstracts
them: field values have an abstract type `Val`, and each rule name gets a
satisfaction test, default message and limit value as functions of its
parsed parameters. -/

structure Env (Val : Type) where
  sem : Str → List Param → Val → Bool
  dmsg : Str → List Param → Str
  lim : Str → List Param → Option Val
  tmpl : Str → Str
  regexValid : Str → Bool

/-- The `Validator` interface as `apply` consumes it. -/
structure Validator (Val : Type) where
  isSatisfied : Val → Bool
  getKey : Str
  defaultMessage : Str
  getLimitValue : Option Val

/-- Modelled from the spec: the validator struct a rule method builds from
its reflected arguments.  The struct definitions themselves are in the
predicate-library file (absent from the sources at hand); per the spec each
descriptor's "final positional parameter is always the dispatch key", which
the struct stores and `GetKey` returns, while satisfaction, default message
and limit value are the predicate's own (abstract, from `Env`). -/
def mkValidator {Val : Type} (E : Env Val) (name : Str) (ps : List Param) :
    Validator Val where
  isSatisfied := E.sem name ps
  getKey := match ps.getLast? with
    | some (.pstr k) => k
    | _ => []
  defaultMessage := E.dmsg name ps
  getLimitValue := E.lim name ps

/-! ### Error model (`Error`, `Result`, `Validation`) -/

/-- The `Error` struct.  `Value`/`LimitValue` are `interface{}` in Go and
`Option Val` here (`none` for Go `nil`). -/
structure Error (Val : Type) where
  message : Str
  key : Str
  name : Str
  field : Str
  tmpl : Str
  value : Option Val
  limitValue : Option Val
  deriving DecidableEq, Repr

/-- The `Result` struct: `Ok` plus an optional pointer to the `Error`. -/
structure Result (Val : Type) where
  error : Option (Error Val)
  ok : Bool
  deriving DecidableEq, Repr

/-- `Result.Key`: set the error's key when an error is present. -/
def Result.setKey {Val : Type} (r : Result Val) (key : Str) : Result Val :=
  match r.error with
  | none => r
  | some e => { r with error := some { e with key := key } }

/-- `Result.Message` (the zero-`args` form; `fmt.Sprintf` formatting with
arguments is outside the model): set the error's message when an error is
present. -/
def Result.setMessage {Val : Type} (r : Result Val) (message : Str) :
    Result Val :=
  match r.error with
  | none => r
  | some e => { r with error := some { e with message := message } }

/-- The `Validation` context.  `ErrorsMap` is `map[string]*Error`, i.e.
`none` for the Go `nil` map and an association list otherwise. -/
structure Validation (Val : Type) where
  errors : List (Error Val)
  errorsMap : Option (List (Str × Error Val))
  deriving DecidableEq, Repr

/-- The zero `Validation{}` context. -/
def Validation.fresh (Val : Type) : Validation Val := ⟨[], none⟩

/-- `Validation.Clear`. -/
def Validation.clear {Val : Type} (_ : Validation Val) : Validation Val :=
  ⟨[], none⟩

/-- `Validation.HasErrors`. -/
def Validation.hasErrors {Val : Type} (v : Validation Val) : Bool :=
  v.errors.length > 0

/-- Read the `ErrorsMap` at a field: a Go `nil` map reads as absent. -/
def Validation.mapAt {Val : Type} (v : Validation Val) (f : Str) :
    Option (Error Val) :=
  List.lookup f (v.errorsMap.getD [])

/-- The first-wins invariant of the error collection: the map holds, for
each field, exactly the first error of the `Errors` sequence carrying that
field. -/
def MapInv {Val : Type} (v : Validation Val) : Prop :=
  ∀ f : Str, v.mapAt f = v.errors.find? (fun e => e.field == f)

/-- `Validation.setError`: append to `Errors`; create the map if `nil`; bind
the field in `ErrorsMap` only when the field has no entry yet. -/
def Validation.setError {Val : Type} (v : Validation Val) (e : Error Val) :
    Validation Val :=
  let m := v.errorsMap.getD []
  let m' := if (List.lookup e.field m).isSome then m else m ++ [(e.field, e)]
  { errors := v.errors ++ [e], errorsMap := some m' }

/-- `Validation.SetError(fieldName, errMsg)`. -/
def Validation.setErrorField {Val : Type} (v : Validation Val)
    (fieldName errMsg : Str) : Validation Val × Error Val :=
  let e : Error Val :=
    { message := errMsg, key := fieldName, name := [], field := fieldName,
      tmpl := errMsg, value := none, limitValue := none }
  (v.setError e, e)

/-- `Validation.Error(message)` (zero-`args` form): a detached failing
`Result` whose fresh `Error` gets the message and is appended to `Errors`;
`ErrorsMap` is not touched. -/
def Validation.errorOp {Val : Type} (v : Validation Val) (message : Str) :
    Validation Val × Result Val :=
  let e : Error Val :=
    { message := message, key := [], name := [], field := [],
      tmpl := [], value := none, limitValue := none }
  ({ v with errors := v.errors ++ [e] }, ⟨some e, false⟩)

/-- The `Error` that `Validation.apply` constructs on a failed check. -/
def mkApplyErr {Val : Type} (E : Env Val) (chk : Validator Val) (obj : Val)
    (errDesc : Str) : Error Val :=
  let key := chk.getKey
  let fieldName : Str × Str :=
    match splitOnChar '.' key with
    | [a, b] => (a, b)
    | _ => ([], key)
  { message := if trimSpace errDesc = [] then chk.defaultMessage else errDesc,
    key := key,
    name := fieldName.2,
    field := fieldName.1,
    tmpl := E.tmpl fieldName.2,
    value := some obj,
    limitValue := chk.getLimitValue }

/-- `Validation.apply`: a satisfied check returns `Result{Ok: true}` and
leaves the context alone; a failed check builds the `Error`, records it via
`setError`, and returns it in a failing `Result`. -/
def Validation.apply {Val : Type} (E : Env Val) (v : Validation Val)
    (chk : Validator Val) (obj : Val) (errDesc : Str) :
    Validation Val × Result Val :=
  if chk.isSatisfied obj then (v, ⟨none, true⟩)
  else
    let e := mkApplyErr E chk obj errDesc
    (v.setError e, ⟨some e, false⟩)

/-! ### Rule compiler (`util.go`) -/

/-- `ValidFunc`: one compiled rule descriptor. -/
structure ValidFunc where
  name : Str
  errMsg : Str
  params : List Param
  deriving DecidableEq, Repr

/-- `parseParam`: coerce one trimmed argument to the declared parameter
type.  The `Ptr` case accepts only `*regexp.Regexp` (`pregex` here); regex
compilation is the environment's validity test. -/
def parseParam {Val : Type} (E : Env Val) (t : PType) (s : Str) :
    Except CompileErr Param :=
  match t with
  | .pint =>
    match atoi s with
    | some n => .ok (.pint n)
    | none => .error (.atoiErr s)
  | .pstr => .ok (.pstr s)
  | .pregex => if E.regexValid s then .ok (.preg s) else .error (.regexErr s)

/-- `numIn`: the registered arity, `NumIn - 4` (receiver, `obj`, `key`,
`errDesc` subtracted), as a (possibly negative) integer. -/
def numInF (m : FuncsMap) (name : Str) : Except CompileErr Int :=
  match lookupA m name with
  | none => .error (.notExist name)
  | some fe => .ok ((fe.numIn : Int) - 4)

/-- Coerce the argument at position `i` by the declared type at `In(i + 2)`
(`ptypes` starts at `In(2)`), trimming each argument string first. -/
def coerceParams {Val : Type} (E : Env Val) (pts : List PType) :
    Nat → List Str → Except CompileErr (List Param)
  | _, [] => .ok []
  | i, a :: rest =>
    match parseParam E (pts.getD i .pstr) (trimSpace a) with
    | .error e => .error e
    | .ok p =>
      match coerceParams E pts (i + 1) rest with
      | .error e => .error e
      | .ok ps => .ok (p :: ps)

/-- `trim`: coerce each argument by the type at `In(i + 2)` and append the
dispatch key as the final parameter. -/
def trimP {Val : Type} (E : Env Val) (m : FuncsMap) (name key : Str)
    (s : List Str) : Except CompileErr (List Param) :=
  match lookupA m name with
  | none => .error (.notExist name)
  | some fe =>
    match coerceParams E fe.ptypes 0 s with
    | .error e => .error e
    | .ok ps => .ok (ps ++ [.pstr key])

/-- `parseFunc`: parse one clause.  A bare name must have registered arity
zero; `name(arg, ...)` must supply exactly the registered arity, each
argument coerced by `trim`.  The recovered slice panic of
`vfunc[start+1:end]` when the first `)` precedes the first `(` is the
`slicePanic` error (the `defer`/`recover` in the source converts it to an
ordinary error). -/
def parseFunc {Val : Type} (E : Env Val) (m : FuncsMap)
    (vfunc0 errDesc key : Str) : Except CompileErr ValidFunc :=
  let vfunc := trimSpace vfunc0
  match strIndex vfunc (str "(") with
  | none =>
    match numInF m vfunc with
    | .error e => .error e
    | .ok num =>
      if num ≠ 0 then .error (.requireParams vfunc num)
      else .ok ⟨vfunc, errDesc, [.pstr (key ++ '.' :: vfunc)]⟩
  | some start =>
    match strIndex vfunc (str ")") with
    | none => .error .invalidFunc
    | some stop =>
      let name := trimSpace (vfunc.take start)
      match numInF m name with
      | .error e => .error e
      | .ok num =>
        if stop < start + 1 then .error .slicePanic
        else
          let params := splitOnChar ',' (seg vfunc (start + 1) stop)
          if num ≠ (params.length : Int) then .error (.requireParams name num)
          else
            match trimP E m name (key ++ '.' :: name) params with
            | .error e => .error e
            | .ok tParams => .ok ⟨name, errDesc, tParams⟩

/-- The description-tag pass of `getRegFuncs` when the description list is
semicolon-separated: walking the clauses of the *original* annotation, the
description at a `Match(/`-containing clause index becomes the regex rule's
description, the others are re-joined with `;` (writing a separator exactly
when `idx > 0` and the index is within the description list). -/
def regDescLoop (errDescTags : List Str) :
    List Str → Nat → Str → Str → Str × Str
  | [], _, rdt, buf => (rdt, buf)
  | aTag :: rest, idx, rdt, buf =>
    if strContains (trimSpace aTag) (str "Match(/") then
      let rdt' := if errDescTags.length > idx then errDescTags.getD idx [] else rdt
      regDescLoop errDescTags rest (idx + 1) rdt' buf
    else
      let buf' := buf
        ++ (if idx > 0 ∧ errDescTags.length > idx then [';'] else [])
        ++ (if errDescTags.length > idx then errDescTags.getD idx [] else [])
      regDescLoop errDescTags rest (idx + 1) rdt buf'

/-- The `(regDescTag, newErrDescTag)` pair the extraction pass computes
from the original annotation and description: the whole description when it
holds no `;` (leaving the remaining description empty), the `regDescLoop`
result when it does, and empty strings when there is no description. -/
def regDescPair (tag errDescTag : Str) : Str × Str :=
  if errDescTag.length > 0 then
    if strContains errDescTag (str ";") = false then (errDescTag, [])
    else regDescLoop (splitOnChar ';' errDescTag) (splitOnChar ';' tag) 0 [] []
  else ([], [])

/-- `getRegFuncs`: extract a `Match(/.../)` sub-term.  The pattern spans
from just past the first `Match(/` to the last `/)` of the whole string; the
sub-term is excised (both remnants trimmed) and compiled into a leading
`Match` descriptor.  `LastIndex` misses (`-1`) and `end < index` are the
"invalid Match function" error.  When the last `/)` starts inside the
`Match(/` opener itself (`index ≤ end < index + 7`) the Go slice
`tag[index+7:end]` panics with no `recover` on this path; the model folds
that crash into the error monad as `slicePanic`. -/
def getRegFuncs {Val : Type} (E : Env Val) (tag errDescTag key : Str) :
    Except CompileErr (List ValidFunc × Str × Str) :=
  match strIndex tag (str "Match(/") with
  | none => .ok ([], tag, errDescTag)
  | some index =>
    match strLastIndex tag (str "/)") with
    | none => .error .invalidMatch
    | some stop =>
      if stop < index then .error .invalidMatch
      else if stop < index + 7 then .error .slicePanic
      else if E.regexValid (seg tag (index + 7) stop) then
        .ok ([⟨str "Match", (regDescPair tag errDescTag).1,
              [.preg (seg tag (index + 7) stop),
               .pstr (key ++ str ".Match")]⟩],
             trimSpace (tag.take index) ++ trimSpace (tag.drop (stop + 2)),
             (regDescPair tag errDescTag).2)
      else .error (.regexErr (seg tag (index + 7) stop))

/-- The description assigned to the clause at split index `idx`: the whole
(possibly rewritten) description tag when it held no `;`, else the piece at
`idx`, empty when the index is past the list. -/
def descAt (fsDesc : Option (List Str)) (wholeDesc : Str) (idx : Nat) : Str :=
  match fsDesc with
  | none => wholeDesc
  | some l => if l.length > idx then l.getD idx [] else []

/-- The per-clause loop of `getValidFuncs`: clauses empty *before* trimming
are skipped but still consume a split index; each remaining clause is
parsed with its positionally assigned description. -/
def clauseLoop {Val : Type} (E : Env Val) (m : FuncsMap)
    (fname : Str) (fsDesc : Option (List Str)) (wholeDesc : Str) :
    List Str → Nat → Except CompileErr (List ValidFunc)
  | [], _ => .ok []
  | vfunc :: rest, idx =>
    if vfunc = [] then clauseLoop E m fname fsDesc wholeDesc rest (idx + 1)
    else
      match parseFunc E m vfunc (descAt fsDesc wholeDesc idx) fname with
      | .error e => .error e
      | .ok vf =>
        match clauseLoop E m fname fsDesc wholeDesc rest (idx + 1) with
        | .error e => .error e
        | .ok vfs => .ok (vf :: vfs)

/-- `getValidFuncs`: trim the `valid` tag (empty means no rules), trim the
`vdesc` tag, run the regex-extraction pass, split the remaining annotation
on `;`, and parse each clause with its positionally aligned description. -/
def getValidFuncs {Val : Type} (E : Env Val) (m : FuncsMap)
    (rawTag rawDesc fname : Str) : Except CompileErr (List ValidFunc) :=
  let tag := trimSpace rawTag
  if tag.length = 0 then .ok []
  else
    let errDescTag := trimSpace rawDesc
    match getRegFuncs E tag errDescTag fname with
    | .error e => .error e
    | .ok (vfs0, tag', errDescTag') =>
      let fs := splitOnChar ';' tag'
      let fsDesc : Option (List Str) :=
        if strContains errDescTag' (str ";") then
          some (splitOnChar ';' errDescTag')
        else none
      match clauseLoop E m fname fsDesc errDescTag' fs 0 with
      | .error e => .error e
      | .ok vfs => .ok (vfs0 ++ vfs)

/-! ### Execution engine (`Funcs.Call`, `Validation.Valid`) -/

/-- `Funcs.Call` with `mergeParam(v, obj, errDesc, params)`: a missing name
or an argument count differing from the method's `NumIn` (`mergeParam`
passes `2 + len(params) + 1` values) is an error; otherwise the method runs.
The nineteen rule methods forward to `apply` with the validator built from
the parameters.  A dispatch to `SetError` or to a runtime-registered custom
function cannot arise from a compiled rule list (their computed arity
`NumIn - 4` is negative, so `parseFunc` rejects every clause naming them);
that unreachable branch is left as the `unmodelledDispatch` error. -/
def callF {Val : Type} (E : Env Val) (m : FuncsMap) (v : Validation Val)
    (name : Str) (ps : List Param) (errMsg : Str) (obj : Val) :
    Except CompileErr (Validation Val × Result Val) :=
  match lookupA m name with
  | none => .error (.notExist name)
  | some fe =>
    if ps.length + 3 ≠ fe.numIn then .error .paramsNotAdapted
    else
      match fe.impl with
      | .validator => .ok (v.apply E (mkValidator E name ps) obj errMsg)
      | _ => .error .unmodelledDispatch

/-- A struct field as `Valid` sees it: its name, its two tag strings, and
its current value. -/
structure FieldS (Val : Type) where
  fname : Str
  validTag : Str
  vdescTag : Str
  value : Val

/-- The outcomes of `Validation.Valid`: `nil`, the input-shape error, a
compile error surfaced from `getValidFuncs`, a `Funcs.Call` error, or
`errors.New(v.Errors[0].Message)` after a rule invocation left the context
with errors. -/
inductive VOut
  | ok
  | typeErr
  | compErr (e : CompileErr)
  | callErr (e : CompileErr)
  | valErr (message : Str)
  deriving DecidableEq, Repr

/-- The per-rule loop of `Valid` over one field's compiled rules,
instrumented with the trace of rules actually dispatched (as
`(fieldName, ruleName)` pairs).  After each successful dispatch,
`HasErrors()` on the whole context decides the early `errors.New(...)`
return. -/
def runVFs {Val : Type} (E : Env Val) (m : FuncsMap) (fld : Str) (obj : Val) :
    List ValidFunc → Validation Val →
    Validation Val × List (Str × Str) × Option VOut
  | [], v => (v, [], none)
  | vf :: rest, v =>
    match callF E m v vf.name vf.params vf.errMsg obj with
    | .error e => (v, [], some (.callErr e))
    | .ok (v', _res) =>
      match v'.errors with
      | [] => -- HasErrors() false: next rule
        let (v'', tr, out) := runVFs E m fld obj rest v'
        (v'', (fld, vf.name) :: tr, out)
      | e0 :: _ => (v', [(fld, vf.name)], some (.valErr e0.message))

/-- The per-field loop of `Valid`: compile each field's rules (a compile
failure aborts the call), then run them. -/
def validFields {Val : Type} (E : Env Val) (m : FuncsMap) :
    List (FieldS Val) → Validation Val →
    Validation Val × List (Str × Str) × VOut
  | [], v => (v, [], .ok)
  | f :: fs, v =>
    match getValidFuncs E m f.validTag f.vdescTag f.fname with
    | .error e => (v, [], .compErr e)
    | .ok vfs =>
      match runVFs E m f.fname f.value vfs v with
      | (v', tr, some out) => (v', tr, out)
      | (v', tr, none) =>
        let (v'', tr', out) := validFields E m fs v'
        (v'', tr ++ tr', out)

/-- The argument of `Valid`: a struct, a pointer to a struct (dereferenced
to the same field list), or anything else. -/
inductive ObjV (Val : Type)
  | struct (fields : List (FieldS Val))
  | ptr (fields : List (FieldS Val))
  | other

/-- `Validation.Valid(obj)`: the input-shape guard, then the field/rule
loops.  Returns the final context, the trace of dispatched rules, and the
outcome. -/
def Validation.valid {Val : Type} (E : Env Val) (m : FuncsMap)
    (v : Validation Val) (obj : ObjV Val) :
    Validation Val × List (Str × Str) × VOut :=
  match obj with
  | .struct fields => validFields E m fields v
  | .ptr fields => validFields E m fields v
  | .other => (v, [], .typeErr)

/-- A descriptor is well-formed for a registry when its name is bound to a
rule-method entry whose `NumIn` matches the argument count `mergeParam`
will supply.  Every descriptor the compiler emits against `funcs0` is
well-formed, which is what makes `Funcs.Call` succeed from `Valid`. -/
def WFvf (m : FuncsMap) (vf : ValidFunc) : Prop :=
  ∃ fe, lookupA m vf.name = some fe ∧ fe.impl = .validator ∧
    vf.params.length + 3 = fe.numIn

/-- The satisfaction test a compiled descriptor performs on a field value. -/
def satVF {Val : Type} (E : Env Val) (obj : Val) (vf : ValidFunc) : Bool :=
  (mkValidator E vf.name vf.params).isSatisfied obj

/-- The error a failing compiled descriptor records for a field value. -/
def errVF {Val : Type} (E : Env Val) (obj : Val) (vf : ValidFunc) :
    Error Val :=
  mkApplyErr E (mkValidator E vf.name vf.params) obj vf.errMsg

/-- The rule name a clause carries, as `parseFunc` reads it: the trimmed
clause up to its first `(`, or the whole trimmed clause. -/
def clauseName (c : Str) : Str :=
  match strIndex (trimSpace c) (str "(") with
  | none => trimSpace c
  | some start => trimSpace ((trimSpace c).take start)

/-- A small concrete environment over `Nat` field values, for evaluating
the model at specific inputs: every rule behaves like `Required` (non-zero
is satisfied), default messages are `D`-prefixed rule names, and every
nonempty pattern is a valid regular expression. -/
def envW : Env Nat where
  sem := fun _ _ v => v != 0
  dmsg := fun nm _ => 'D' :: nm
  lim := fun _ _ => none
  tmpl := fun _ => []
  regexValid := fun pat => pat != []

/-- The compiled rule list of a field under `envW`, as a total function
(empty on compile failure), for instantiating the engine theorems. -/
def cfW (f : FieldS Nat) : List ValidFunc :=
  match getValidFuncs envW funcs0 f.validTag f.vdescTag f.fname with
  | .ok l => l
  | .error _ => []

/-! ### Characterizations of the string-search helpers -/

theorem findBelow_none_spec {p : Nat → Bool} :
    ∀ {n : Nat}, findBelow p n = none → ∀ j < n, p j = false := by
  intro n
  induction n with
  | zero => intro _ j hj; omega
  | succ n ih =>
    intro h j hj
    unfold findBelow at h
    cases hfb : findBelow p n with
    | some k => rw [hfb] at h; simp at h
    | none =>
      rw [hfb] at h
      by_cases hp : p n
      · simp [hp] at h
      · rcases Nat.lt_succ_iff_lt_or_eq.mp hj with hlt | heq
        · exact ih hfb j hlt
        · subst heq; simpa using hp

theorem findBelow_some_spec {p : Nat → Bool} :
    ∀ {n i : Nat}, findBelow p n = some i →
      i < n ∧ p i = true ∧ ∀ j < i, p j = false := by
  intro n
  induction n with
  | zero => intro i h; simp [findBelow] at h
  | succ n ih =>
    intro i h
    unfold findBelow at h
    cases hfb : findBelow p n with
    | none =>
      rw [hfb] at h
      by_cases hp : p n
      · simp [hp] at h
        subst h
        exact ⟨Nat.lt_succ_self n, hp, findBelow_none_spec hfb⟩
      · simp [hp] at h
    | some k =>
      rw [hfb] at h
      simp at h
      subst h
      obtain ⟨h1, h2, h3⟩ := ih hfb
      exact ⟨Nat.lt_succ_of_lt h1, h2, h3⟩

theorem findBelow_of_all_neg {p : Nat → Bool} :
    ∀ {n : Nat}, (∀ j < n, p j = false) → findBelow p n = none := by
  intro n
  induction n with
  | zero => intro _; rfl
  | succ n ih =>
    intro h
    unfold findBelow
    rw [ih (fun j hj => h j (Nat.lt_succ_of_lt hj))]
    simp [h n (Nat.lt_succ_self n)]

theorem findBelow_of_min {p : Nat → Bool} :
    ∀ {n i : Nat}, i < n → p i = true → (∀ j < i, p j = false) →
      findBelow p n = some i := by
  intro n
  induction n with
  | zero => intro i h; omega
  | succ n ih =>
    intro i hin hp hmin
    unfold findBelow
    rcases Nat.lt_succ_iff_lt_or_eq.mp hin with hlt | heq
    · rw [ih hlt hp hmin]
    · subst heq
      rw [findBelow_of_all_neg hmin]
      simp [hp]

theorem findLastBelow_some_spec {p : Nat → Bool} :
    ∀ {n i : Nat}, findLastBelow p n = some i →
      i < n ∧ p i = true ∧ ∀ j, i < j → j < n → p j = false := by
  intro n
  induction n with
  | zero => intro i h; simp [findLastBelow] at h
  | succ n ih =>
    intro i h
    unfold findLastBelow at h
    by_cases hp : p n
    · simp [hp] at h
      subst h
      exact ⟨Nat.lt_succ_self n, hp, fun j h1 h2 => by omega⟩
    · simp [hp] at h
      obtain ⟨h1, h2, h3⟩ := ih h
      refine ⟨Nat.lt_succ_of_lt h1, h2, ?_⟩
      intro j hij hjn
      rcases Nat.lt_succ_iff_lt_or_eq.mp hjn with hlt | heq
      · exact h3 j hij hlt
      · subst heq; simpa using hp

theorem findLastBelow_none_spec {p : Nat → Bool} :
    ∀ {n : Nat}, findLastBelow p n = none → ∀ j < n, p j = false := by
  intro n
  induction n with
  | zero => intro _ j hj; omega
  | succ n ih =>
    intro h j hj
    unfold findLastBelow at h
    by_cases hp : p n
    · simp [hp] at h
    · simp [hp] at h
      rcases Nat.lt_succ_iff_lt_or_eq.mp hj with hlt | heq
      · exact ih h j hlt
      · subst heq; simpa using hp

theorem findLastBelow_of_max {p : Nat → Bool} :
    ∀ {n i : Nat}, i < n → p i = true →
      (∀ j, i < j → j < n → p j = false) → findLastBelow p n = some i := by
  intro n
  induction n with
  | zero => intro i h; omega
  | succ n ih =>
    intro i hin hp hmax
    unfold findLastBelow
    rcases Nat.lt_succ_iff_lt_or_eq.mp hin with hlt | heq
    · rw [hmax n hlt (Nat.lt_succ_self n)]
      exact ih hlt hp (fun j h1 h2 => hmax j h1 (Nat.lt_succ_of_lt h2))
    · subst heq; simp [hp]

theorem occ_false_iff {s pat : Str} {j : Nat} :
    pat.isPrefixOf (s.drop j) = false ↔ ¬ OccursAt s pat j := by
  rw [OccursAt]
  cases h : pat.isPrefixOf (s.drop j) <;> simp

theorem strIndex_iff {s pat : Str} {i : Nat} :
    strIndex s pat = some i ↔ FirstOccAt s pat i := by
  constructor
  · intro h
    obtain ⟨h1, h2, h3⟩ := findBelow_some_spec h
    exact ⟨Nat.lt_succ_iff.mp h1, h2, fun j hj => occ_false_iff.mp (h3 j hj)⟩
  · rintro ⟨h1, h2, h3⟩
    exact findBelow_of_min (Nat.lt_succ_of_le h1) h2
      (fun j hj => occ_false_iff.mpr (h3 j hj))

theorem strIndex_eq_none_iff {s pat : Str} :
    strIndex s pat = none ↔ ∀ j ≤ s.length, ¬ OccursAt s pat j := by
  constructor
  · intro h j hj
    exact occ_false_iff.mp (findBelow_none_spec h j (Nat.lt_succ_of_le hj))
  · intro h
    exact findBelow_of_all_neg
      (fun j hj => occ_false_iff.mpr (h j (Nat.lt_succ_iff.mp hj)))

theorem strLastIndex_iff {s pat : Str} {i : Nat} :
    strLastIndex s pat = some i ↔ LastOccAt s pat i := by
  constructor
  · intro h
    obtain ⟨h1, h2, h3⟩ := findLastBelow_some_spec h
    exact ⟨Nat.lt_succ_iff.mp h1, h2, fun j hj hij =>
      occ_false_iff.mp (h3 j hij (Nat.lt_succ_of_le hj))⟩
  · rintro ⟨h1, h2, h3⟩
    exact findLastBelow_of_max (Nat.lt_succ_of_le h1) h2
      (fun j h1' h2' =>
        occ_false_iff.mpr (h3 j (Nat.lt_succ_iff.mp h2') h1'))

theorem strLastIndex_eq_none_iff {s pat : Str} :
    strLastIndex s pat = none ↔ ∀ j ≤ s.length, ¬ OccursAt s pat j := by
  constructor
  · intro h j hj
    exact occ_false_iff.mp (findLastBelow_none_spec h j (Nat.lt_succ_of_le hj))
  · intro h
    refine Option.eq_none_iff_forall_not_mem.mpr ?_
    intro i hi
    have := findLastBelow_some_spec hi
    exact h i (Nat.lt_succ_iff.mp this.1) this.2.1

/-! ### Properties of the splitter and the association-list operations -/

theorem splitOnChar_no_sep {c : Char} : ∀ {s : Str}, c ∉ s →
    splitOnChar c s = [s] := by
  intro s
  induction s with
  | nil => intro _; rfl
  | cons a t ih =>
    intro h
    have hac : ¬ a = c := fun hc => h (by simp [hc])
    have hct : c ∉ t := fun hc => h (List.mem_cons_of_mem a hc)
    simp only [splitOnChar, if_neg hac, ih hct]

theorem splitOnChar_sep {c : Char} {b : Str} : ∀ {a : Str}, c ∉ a →
    splitOnChar c (a ++ c :: b) = a :: splitOnChar c b := by
  intro a
  induction a with
  | nil => intro _; simp [splitOnChar]
  | cons x a' ih =>
    intro h
    have hxc : ¬ x = c := fun hc => h (by simp [hc])
    have hca : c ∉ a' := fun hc => h (List.mem_cons_of_mem x hc)
    simp only [List.cons_append, splitOnChar, if_neg hxc, List.append_eq,
      ih hca]

theorem splitOnChar_pair {c : Char} {a b : Str} (ha : c ∉ a) (hb : c ∉ b) :
    splitOnChar c (a ++ c :: b) = [a, b] := by
  rw [splitOnChar_sep ha, splitOnChar_no_sep hb]

theorem lookupA_insertA_self (k : Str) (v : FEntry) :
    ∀ m : FuncsMap, lookupA (insertA m k v) k = some v := by
  intro m
  induction m with
  | nil => simp [lookupA, insertA, List.lookup]
  | cons kv t ih =>
    by_cases h : k = kv.1
    · simp [lookupA, insertA, h, List.lookup]
    · have hb : (k == kv.1) = false := by simpa using h
      simpa [lookupA, insertA, if_neg h, List.lookup, hb] using ih

theorem lookupA_insertA_ne {k k' : Str} (hne : k' ≠ k) (v : FEntry) :
    ∀ m : FuncsMap, lookupA (insertA m k v) k' = lookupA m k' := by
  intro m
  have hb : (k' == k) = false := by simpa using hne
  induction m with
  | nil => simp [lookupA, insertA, List.lookup, hb]
  | cons kv t ih =>
    by_cases h : k = kv.1
    · subst h
      simp [lookupA, insertA, List.lookup, hb]
    · by_cases h' : k' = kv.1
      · simp [lookupA, insertA, if_neg h, List.lookup, h']
      · have hb' : (k' == kv.1) = false := by simpa using h'
        simpa [lookupA, insertA, if_neg h, List.lookup, hb'] using ih

theorem lookup_append_pair {α : Type} (k : Str) (m : List (Str × α))
    (k' : Str) (v : α) :
    List.lookup k (m ++ [(k', v)]) =
      (List.lookup k m).or (if k == k' then some v else none) := by
  induction m with
  | nil => cases h : (k == k') <;> simp [List.lookup, h]
  | cons kv t ih =>
    cases h : (k == kv.1) with
    | true => simp [List.lookup, h]
    | false => simpa [List.lookup, h] using ih

/-! ### The error model: first-wins aggregation -/

theorem mapInv_fresh (Val : Type) : MapInv (Validation.fresh Val) := by
  intro f
  rfl

theorem setError_errors {Val : Type} (v : Validation Val) (e : Error Val) :
    (v.setError e).errors = v.errors ++ [e] := rfl

theorem setError_mapAt {Val : Type} (v : Validation Val) (e : Error Val)
    (f : Str) :
    (v.setError e).mapAt f =
      if (v.mapAt e.field).isSome then v.mapAt f
      else (v.mapAt f).or (if f == e.field then some e else none) := by
  unfold Validation.setError Validation.mapAt
  cases hp : (List.lookup e.field (v.errorsMap.getD [])).isSome with
  | true => simp [hp]
  | false => simp [hp, lookup_append_pair]

theorem mapInv_setError {Val : Type} {v : Validation Val} (e : Error Val)
    (h : MapInv v) : MapInv (v.setError e) := by
  intro f
  rw [setError_mapAt, setError_errors, List.find?_append, ← h f]
  by_cases hfe : f = e.field
  · rw [hfe]
    cases hm : v.mapAt e.field with
    | some x => simp [hm]
    | none => simp [hm, List.find?]
  · have h1 : (f == e.field) = false := by simpa using hfe
    have h2 : (e.field == f) = false := by simpa using (Ne.symm hfe)
    cases hm : v.mapAt e.field with
    | some x => simp [hm, List.find?, h2]
    | none => simp [hm, List.find?, h1, h2]

theorem mapAt_setError_of_some {Val : Type} {v : Validation Val}
    {f : Str} {e0 : Error Val} (e : Error Val) (h : v.mapAt f = some e0) :
    (v.setError e).mapAt f = some e0 := by
  rw [setError_mapAt]
  by_cases hp : (v.mapAt e.field).isSome
  · simp [hp, h]
  · simp [hp, h]

/-! ### Shape of compiled rule descriptors -/

theorem coerceParams_length {Val : Type} (E : Env Val) (pts : List PType) :
    ∀ (s : List Str) (i : Nat) (cs : List Param),
      coerceParams E pts i s = .ok cs → cs.length = s.length := by
  intro s
  induction s with
  | nil => intro i cs h; simp [coerceParams] at h; simp [← h]
  | cons a rest ih =>
    intro i cs h
    unfold coerceParams at h
    split at h
    · exact absurd h (by simp)
    · split at h
      · exact absurd h (by simp)
      · rename_i p _ ps hps
        simp at h
        subst h
        simp [ih (i + 1) ps hps]

theorem trimP_ok_shape {Val : Type} (E : Env Val) (m : FuncsMap)
    {name key : Str} {s : List Str} {ps : List Param}
    (h : trimP E m name key s = .ok ps) :
    ∃ fe cs, lookupA m name = some fe ∧
      coerceParams E fe.ptypes 0 s = .ok cs ∧ ps = cs ++ [.pstr key] := by
  unfold trimP at h
  split at h
  · exact absurd h (by simp)
  · rename_i fe hfe
    split at h
    · exact absurd h (by simp)
    · rename_i cs hcs
      simp at h
      exact ⟨fe, cs, hfe, hcs, h.symm⟩

theorem trimP_last_length {Val : Type} (E : Env Val) (m : FuncsMap)
    {name key : Str} {s : List Str} {ps : List Param}
    (h : trimP E m name key s = .ok ps) :
    ps.getLast? = some (.pstr key) ∧ ps.length = s.length + 1 := by
  obtain ⟨fe, cs, _, hcs, hps⟩ := trimP_ok_shape E m h
  subst hps
  refine ⟨?_, by simp [coerceParams_length E fe.ptypes s 0 cs hcs]⟩
  simp

theorem numInF_ok {m : FuncsMap} {name : Str} {num : Int}
    (h : numInF m name = .ok num) :
    ∃ fe, lookupA m name = some fe ∧ num = (fe.numIn : Int) - 4 := by
  unfold numInF at h
  split at h
  · exact absurd h (by simp)
  · rename_i fe hfe
    simp at h
    exact ⟨fe, hfe, h.symm⟩

/-- Every descriptor `parseFunc` produces carries `"<key>.<name>"` as its
final parameter, and its parameter count is the registered method's
`NumIn - 3` (rule arity plus the key). -/
theorem parseFunc_ok_shape {Val : Type} (E : Env Val) (m : FuncsMap)
    {vfunc errDesc key : Str} {vf : ValidFunc}
    (h : parseFunc E m vfunc errDesc key = .ok vf) :
    vf.params.getLast? = some (.pstr (key ++ '.' :: vf.name)) ∧
    ∃ fe, lookupA m vf.name = some fe ∧ vf.params.length + 3 = fe.numIn := by
  unfold parseFunc at h
  dsimp only at h
  split at h
  · -- bare name
    split at h
    · exact absurd h (by simp)
    · rename_i num hnum
      split at h
      · exact absurd h (by simp)
      · rename_i hzero
        simp at h
        subst h
        obtain ⟨fe, hfe, hn⟩ := numInF_ok hnum
        simp only [not_not] at hzero
        refine ⟨by simp, fe, hfe, ?_⟩
        subst hzero
        simp
        omega
  · -- parenthesized form
    split at h
    · exact absurd h (by simp)
    · rename_i stop _
      split at h
      · exact absurd h (by simp)
      · rename_i num hnum
        split at h
        · exact absurd h (by simp)
        · split at h
          · exact absurd h (by simp)
          · rename_i hcnt
            split at h
            · exact absurd h (by simp)
            · rename_i tParams htp
              simp at h
              subst h
              obtain ⟨hlast, hlen⟩ := trimP_last_length E m htp
              obtain ⟨fe, hfe, hn⟩ := numInF_ok hnum
              simp only [not_not] at hcnt
              refine ⟨by simpa using hlast, fe, hfe, ?_⟩
              simp only [hlen]
              omega

/-- The descriptor `getRegFuncs` may prepend is always a `Match` rule keyed
`"<key>.Match"`. -/
theorem getRegFuncs_ok_shape {Val : Type} (E : Env Val)
    {tag dsc key t' d' : Str} {vfs : List ValidFunc}
    (h : getRegFuncs E tag dsc key = .ok (vfs, t', d')) :
    vfs = [] ∨ ∃ pat rdt,
      vfs = [⟨str "Match", rdt, [.preg pat, .pstr (key ++ str ".Match")]⟩] := by
  unfold getRegFuncs at h
  split at h
  · simp at h
    exact .inl h.1
  · split at h
    · exact absurd h (by simp)
    · split at h
      · exact absurd h (by simp)
      · split at h
        · exact absurd h (by simp)
        · split at h
          · simp at h
            obtain ⟨h1, h2, h3⟩ := h
            exact .inr ⟨_, _, h1.symm⟩
          · exact absurd h (by simp)

theorem mkValidator_getKey {Val : Type} (E : Env Val) {nm : Str}
    {ps : List Param} {k : Str} (h : ps.getLast? = some (.pstr k)) :
    (mkValidator E nm ps).getKey = k := by
  simp [mkValidator, h]

theorem singleton_isPrefixOf_iff {c : Char} {l : Str} :
    [c].isPrefixOf l = true ↔ l.head? = some c := by
  cases l with
  | nil => simp [List.isPrefixOf]
  | cons x t =>
    constructor
    · intro hh
      simp [List.isPrefixOf] at hh
      simp [hh]
    · intro hh
      simp at hh
      simp [List.isPrefixOf, hh]

/-- The first occurrence of a character not present in `a` within
`a ++ c :: b` is exactly at position `a.length`. -/
theorem strIndex_append_cons {c : Char} {a b : Str} (h : c ∉ a) :
    strIndex (a ++ c :: b) [c] = some a.length := by
  rw [strIndex_iff]
  refine ⟨by simp, ?_, ?_⟩
  · show [c].isPrefixOf ((a ++ c :: b).drop a.length) = true
    rw [List.drop_left]
    simp [List.isPrefixOf]
  · intro j hj hocc
    rw [OccursAt] at hocc
    have hd : (a ++ c :: b).drop j = a.drop j ++ c :: b := by
      rw [List.drop_append_eq_append_drop, Nat.sub_eq_zero_of_le hj.le,
        List.drop_zero]
    rw [hd] at hocc
    have hhead := singleton_isPrefixOf_iff.mp hocc
    rw [List.head?_append] at hhead
    rw [List.head?_drop] at hhead
    have hj' : a[j]? = some a[j] := List.getElem?_eq_getElem hj
    rw [hj'] at hhead
    simp at hhead
    exact h (hhead ▸ List.getElem_mem hj)

/-- Go slicing of the middle block out of a three-block concatenation. -/
theorem seg_mid (p q r : Str) :
    seg (p ++ q ++ r) p.length (p.length + q.length) = q := by
  unfold seg
  rw [List.append_assoc, List.take_append_eq_append_take]
  rw [List.take_of_length_le (by omega), Nat.add_sub_cancel_left]
  rw [List.take_left, List.drop_left]

/-! ### Claim C8: error keys and field/name recovery -/

/-- C8, counterexample: the claim says field/name come from splitting the
key on its *first* dot for every key, including ones with more than one
dot; but for the key `a.b.c` (reachable through any rule method called with
that key) the code leaves the field empty and puts the whole key in the
name, instead of field `a`, name `b.c`. -/
theorem claim_C8_cex :
    (mkApplyErr envW
      (mkValidator envW (str "Match") [.preg (str "x"), .pstr (str "a.b.c")])
      0 []).field = [] ∧
    (mkApplyErr envW
      (mkValidator envW (str "Match") [.preg (str "x"), .pstr (str "a.b.c")])
      0 []).name = str "a.b.c" ∧
    ([] : Str) ≠ str "a" := by
  refine ⟨rfl, rfl, by decide⟩

/-- C8, amended: every rule application's error carries the validator's key
(which the compiler always forms as `"<field>.<ruleName>"`, both for parsed
clauses and for the extracted `Match` clause); `Field`/`Name` are recovered
by the dot split only when the key holds exactly one `.` — then `Field` is
the text before it and `Name` the text after — while any other key (no dot,
or more than one) yields an empty `Field` and the whole key as `Name`. -/
theorem claim_C8 {Val : Type} (E : Env Val) :
    (∀ (chk : Validator Val) (obj : Val) (d : Str),
      (mkApplyErr E chk obj d).key = chk.getKey) ∧
    (∀ (chk : Validator Val) (obj : Val) (d : Str) (a b : Str),
      chk.getKey = a ++ '.' :: b → '.' ∉ a → '.' ∉ b →
      (mkApplyErr E chk obj d).field = a ∧
      (mkApplyErr E chk obj d).name = b) ∧
    (∀ (chk : Validator Val) (obj : Val) (d : Str),
      (splitOnChar '.' chk.getKey).length ≠ 2 →
      (mkApplyErr E chk obj d).field = [] ∧
      (mkApplyErr E chk obj d).name = chk.getKey) ∧
    (∀ (m : FuncsMap) (vfunc errDesc key : Str) (vf : ValidFunc),
      parseFunc E m vfunc errDesc key = .ok vf →
      (mkValidator E vf.name vf.params).getKey = key ++ '.' :: vf.name) ∧
    (∀ (tag dsc key t' d' : Str) (vfs : List ValidFunc) (vf : ValidFunc),
      getRegFuncs E tag dsc key = .ok (vfs, t', d') → vf ∈ vfs →
      vf.name = str "Match" ∧
      (mkValidator E vf.name vf.params).getKey = key ++ str ".Match") := by
  refine ⟨fun chk obj d => rfl, ?_, ?_, ?_, ?_⟩
  · intro chk obj d a b hk ha hb
    have hsp : splitOnChar '.' chk.getKey = [a, b] := by
      rw [hk]; exact splitOnChar_pair ha hb
    constructor <;> simp [mkApplyErr, hsp]
  · intro chk obj d hlen
    rcases hsp : splitOnChar '.' chk.getKey with _ | ⟨x, _ | ⟨y, _ | ⟨z, r⟩⟩⟩
    · constructor <;> simp [mkApplyErr, hsp]
    · constructor <;> simp [mkApplyErr, hsp]
    · rw [hsp] at hlen; simp at hlen
    · constructor <;> simp [mkApplyErr, hsp]
  · intro m vfunc errDesc key vf h
    exact mkValidator_getKey E (parseFunc_ok_shape E m h).1
  · intro tag dsc key t' d' vfs vf h hmem
    rcases getRegFuncs_ok_shape E h with hnil | ⟨pat, rdt, hvfs⟩
    · subst hnil; simp at hmem
    · subst hvfs
      simp at hmem
      subst hmem
      exact ⟨rfl, by simp [mkValidator]⟩

/-- C8, witness: a failing `Min` application keyed `A.Min` recovers field
`A` and name `Min`. -/
theorem claim_C8_witness :
    (mkApplyErr envW
      (mkValidator envW (str "Min") [.pint 3, .pstr (str "A.Min")])
      0 (str "d")).field = str "A" ∧
    (mkApplyErr envW
      (mkValidator envW (str "Min") [.pint 3, .pstr (str "A.Min")])
      0 (str "d")).name = str "Min" :=
  (claim_C8 envW).2.1 _ 0 (str "d") (str "A") (str "Min")
    (by decide) (by decide) (by decide)

/-! ### Claim C4: the built-in catalog and its arities -/

/-- C4, counterexample: the claim's catalog includes `NoMatch` among the
names registered at start-up, but `NoMatch` is in `unFuncs`, so `init`
skips it: it has no registry entry, and compiling a `NoMatch` clause fails
with an unknown-name error rather than dispatching a rule. -/
theorem claim_C4_cex :
    lookupA funcs0 (str "NoMatch") = none ∧
    numInF funcs0 (str "NoMatch") = .error (.notExist (str "NoMatch")) ∧
    parseFunc envW funcs0 (str "NoMatch(abc)") [] (str "F") =
      .error (.notExist (str "NoMatch")) := by
  refine ⟨by decide, by decide, by decide⟩

/-- C4, amended: every rule of the documented catalog *except* `NoMatch` is
registered at start-up with arity (`NumIn - 4`) equal to its documented
parameter count — `Required` 0, `Min`/`Max` 1, `Range` 2, `MinSize` /
`MaxSize` / `Length` 1, `Alpha`/`Numeric`/`AlphaNumeric` 0, `Match` 1,
`AlphaDash`/`Email`/`IP`/`Base64`/`Mobile`/`Tel`/`Phone`/`ZipCode` 0 —
while `NoMatch`, excluded by `unFuncs`, is not registered; and for any
registered name, a parenthesized clause whose comma-separated argument
count differs from the registered arity fails with the parameter-count
error. -/
theorem claim_C4 {Val : Type} (E : Env Val) :
    (numInF funcs0 (str "Required") = .ok 0 ∧
     numInF funcs0 (str "Min") = .ok 1 ∧
     numInF funcs0 (str "Max") = .ok 1 ∧
     numInF funcs0 (str "Range") = .ok 2 ∧
     numInF funcs0 (str "MinSize") = .ok 1 ∧
     numInF funcs0 (str "MaxSize") = .ok 1 ∧
     numInF funcs0 (str "Length") = .ok 1 ∧
     numInF funcs0 (str "Alpha") = .ok 0 ∧
     numInF funcs0 (str "Numeric") = .ok 0 ∧
     numInF funcs0 (str "AlphaNumeric") = .ok 0 ∧
     numInF funcs0 (str "Match") = .ok 1 ∧
     numInF funcs0 (str "AlphaDash") = .ok 0 ∧
     numInF funcs0 (str "Email") = .ok 0 ∧
     numInF funcs0 (str "IP") = .ok 0 ∧
     numInF funcs0 (str "Base64") = .ok 0 ∧
     numInF funcs0 (str "Mobile") = .ok 0 ∧
     numInF funcs0 (str "Tel") = .ok 0 ∧
     numInF funcs0 (str "Phone") = .ok 0 ∧
     numInF funcs0 (str "ZipCode") = .ok 0 ∧
     lookupA funcs0 (str "NoMatch") = none) ∧
    (∀ (m : FuncsMap) (name args errDesc key : Str) (fe : FEntry),
      lookupA m name = some fe →
      '(' ∉ name → ')' ∉ name → ')' ∉ args →
      trimSpace (name ++ '(' :: (args ++ [')'])) =
        name ++ '(' :: (args ++ [')']) →
      trimSpace name = name →
      (fe.numIn : Int) - 4 ≠ ((splitOnChar ',' args).length : Int) →
      parseFunc E m (name ++ '(' :: (args ++ [')'])) errDesc key =
        .error (.requireParams name ((fe.numIn : Int) - 4))) := by
  refine ⟨by decide, ?_⟩
  intro m name args errDesc key fe hfe hpn hcn hca htr htrn hne
  have hidx1 : strIndex (name ++ '(' :: (args ++ [')'])) (str "(") =
      some name.length := by
    have hc : str "(" = ['('] := rfl
    rw [hc]
    exact strIndex_append_cons hpn
  have hidx2 : strIndex (name ++ '(' :: (args ++ [')'])) (str ")") =
      some (name.length + 1 + args.length) := by
    have hno : ')' ∉ name ++ '(' :: args := by
      intro hmem
      rcases List.mem_append.mp hmem with h1 | h2
      · exact hcn h1
      · rcases List.mem_cons.mp h2 with h3 | h4
        · exact absurd h3 (by decide)
        · exact hca h4
    have h0 := strIndex_append_cons (b := []) hno
    have he : (name ++ '(' :: args) ++ ')' :: [] =
        name ++ '(' :: (args ++ [')']) := by simp
    have hl : (name ++ '(' :: args).length = name.length + 1 + args.length := by
      simp only [List.length_append, List.length_cons]
      omega
    rw [he, hl] at h0
    have hc : str ")" = [')'] := rfl
    rw [hc]
    exact h0
  have htake : (name ++ '(' :: (args ++ [')'])).take name.length = name :=
    List.take_left name _
  have hseg : seg (name ++ '(' :: (args ++ [')'])) (name.length + 1)
      (name.length + 1 + args.length) = args := by
    have h0 := seg_mid (name ++ ['(']) args [')']
    have he : (name ++ ['(']) ++ args ++ [')'] =
        name ++ '(' :: (args ++ [')']) := by simp
    have hl : (name ++ ['(']).length = name.length + 1 := by simp
    rw [he, hl] at h0
    exact h0
  unfold parseFunc
  simp only [htr, hidx1, hidx2, htake, htrn, numInF, hfe]
  have hlt : ¬ (name.length + 1 + args.length < name.length + 1) := by omega
  rw [if_neg hlt, hseg, if_pos hne]

/-- C4, witness: `Min` is registered with arity 1, and the two-argument
clause `Min(1,2)` is rejected with the parameter-count error. -/
theorem claim_C4_witness :
    numInF funcs0 (str "Min") = .ok 1 ∧
    parseFunc envW funcs0
      (str "Min" ++ '(' :: (str "1,2" ++ [')'])) [] (str "F") =
      .error (.requireParams (str "Min") 1) := by
  have h := claim_C4 envW
  refine ⟨h.1.2.1, ?_⟩
  have h2 := h.2 funcs0 (str "Min") (str "1,2") [] (str "F")
    ⟨5, [.pint, .pstr, .pstr], .validator⟩
    (by decide) (by decide) (by decide) (by decide) (by decide) (by decide)
    (by decide)
  exact h2

/-! ### Dispatch from compiled descriptors -/

theorem lookupA_mem : ∀ {m : FuncsMap} {k : Str} {fe : FEntry},
    lookupA m k = some fe → (k, fe) ∈ m := by
  intro m
  induction m with
  | nil => intro k fe h; simp [lookupA, List.lookup] at h
  | cons kv t ih =>
    intro k fe h
    unfold lookupA List.lookup at h
    cases hb : (k == kv.1) with
    | true =>
      rw [hb] at h
      simp at h
      have hk : k = kv.1 := by simpa using hb
      subst hk
      subst h
      exact List.mem_cons_self _ _
    | false =>
      rw [hb] at h
      exact List.mem_cons_of_mem _ (ih h)

/-- Every `funcs0` entry whose `NumIn` is not 3 (i.e. everything except
`SetError`) dispatches through `apply`. -/
theorem funcs0_validator {nm : Str} {fe : FEntry}
    (h : lookupA funcs0 nm = some fe) (hn : fe.numIn ≠ 3) :
    fe.impl = .validator := by
  have hall : ∀ p ∈ funcs0, p.2.numIn ≠ 3 → p.2.impl = FImpl.validator := by
    decide
  exact hall (nm, fe) (lookupA_mem h) hn

theorem apply_sat {Val : Type} (E : Env Val) {chk : Validator Val}
    {obj : Val} (v : Validation Val) (d : Str)
    (h : chk.isSatisfied obj = true) :
    Validation.apply E v chk obj d = (v, ⟨none, true⟩) := by
  simp [Validation.apply, h]

theorem apply_unsat {Val : Type} (E : Env Val) {chk : Validator Val}
    {obj : Val} (v : Validation Val) (d : Str)
    (h : chk.isSatisfied obj = false) :
    Validation.apply E v chk obj d =
      (v.setError (mkApplyErr E chk obj d),
       ⟨some (mkApplyErr E chk obj d), false⟩) := by
  simp [Validation.apply, h]

/-- `Funcs.Call` on a well-formed compiled descriptor always reaches the
rule method, which runs `apply` on the validator built from the
parameters. -/
theorem callF_WF {Val : Type} (E : Env Val) {vf : ValidFunc}
    (h : WFvf funcs0 vf) (v : Validation Val) (obj : Val) :
    callF E funcs0 v vf.name vf.params vf.errMsg obj =
      .ok (Validation.apply E v (mkValidator E vf.name vf.params) obj
        vf.errMsg) := by
  obtain ⟨fe, hfe, himpl, hlen⟩ := h
  unfold callF
  simp only [hfe]
  rw [if_neg (by omega)]
  simp only [himpl]

theorem parseFunc_name {Val : Type} (E : Env Val) (m : FuncsMap)
    {vfunc errDesc key : Str} {vf : ValidFunc}
    (h : parseFunc E m vfunc errDesc key = .ok vf) :
    vf.name = clauseName vfunc := by
  unfold parseFunc at h
  dsimp only at h
  unfold clauseName
  split at h
  · split at h
    · exact absurd h (by simp)
    · split at h
      · exact absurd h (by simp)
      · simp at h
        subst h
        rfl
  · split at h
    · exact absurd h (by simp)
    · split at h
      · exact absurd h (by simp)
      · split at h
        · exact absurd h (by simp)
        · split at h
          · exact absurd h (by simp)
          · split at h
            · exact absurd h (by simp)
            · simp at h
              subst h
              rfl

theorem parseFunc_errMsg {Val : Type} (E : Env Val) (m : FuncsMap)
    {vfunc errDesc key : Str} {vf : ValidFunc}
    (h : parseFunc E m vfunc errDesc key = .ok vf) : vf.errMsg = errDesc := by
  unfold parseFunc at h
  dsimp only at h
  split at h
  · split at h
    · exact absurd h (by simp)
    · split at h
      · exact absurd h (by simp)
      · simp at h
        subst h
        rfl
  · split at h
    · exact absurd h (by simp)
    · split at h
      · exact absurd h (by simp)
      · split at h
        · exact absurd h (by simp)
        · split at h
          · exact absurd h (by simp)
          · split at h
            · exact absurd h (by simp)
            · simp at h
              subst h
              rfl

theorem parseFunc_params_pos {Val : Type} (E : Env Val) (m : FuncsMap)
    {vfunc errDesc key : Str} {vf : ValidFunc}
    (h : parseFunc E m vfunc errDesc key = .ok vf) : vf.params ≠ [] := by
  have h1 := (parseFunc_ok_shape E m h).1
  intro hnil
  rw [hnil] at h1
  simp at h1

theorem clauseLoop_parsed {Val : Type} (E : Env Val) (m : FuncsMap)
    (fname : Str) (fsDesc : Option (List Str)) (whole : Str) :
    ∀ (fs : List Str) (idx : Nat) (vfs : List ValidFunc),
      clauseLoop E m fname fsDesc whole fs idx = .ok vfs →
      ∀ vf ∈ vfs, ∃ c d, parseFunc E m c d fname = .ok vf := by
  intro fs
  induction fs with
  | nil =>
    intro idx vfs h vf hm
    simp [clauseLoop] at h
    subst h
    simp at hm
  | cons c rest ih =>
    intro idx vfs h vf hm
    unfold clauseLoop at h
    split at h
    · exact ih (idx + 1) vfs h vf hm
    · split at h
      · exact absurd h (by simp)
      · split at h
        · exact absurd h (by simp)
        · rename_i vf0 hvf0 x vfs' hvfs'
          simp at h
          subst h
          rcases List.mem_cons.mp hm with hh | hh
          · subst hh
            exact ⟨c, _, hvf0⟩
          · exact ih (idx + 1) vfs' hvfs' vf hh

theorem clauseLoop_names {Val : Type} (E : Env Val) (m : FuncsMap)
    (fname : Str) (fsDesc : Option (List Str)) (whole : Str) :
    ∀ (fs : List Str) (idx : Nat) (vfs : List ValidFunc),
      clauseLoop E m fname fsDesc whole fs idx = .ok vfs →
      vfs.map (fun vf => vf.name) =
        (fs.filter (fun c => c != [])).map clauseName := by
  intro fs
  induction fs with
  | nil =>
    intro idx vfs h
    simp [clauseLoop] at h
    subst h
    simp
  | cons c rest ih =>
    intro idx vfs h
    unfold clauseLoop at h
    split at h
    · rename_i hc
      subst hc
      simpa using ih (idx + 1) vfs h
    · rename_i hc
      split at h
      · exact absurd h (by simp)
      · split at h
        · exact absurd h (by simp)
        · rename_i vf0 hvf0 x vfs' hvfs'
          simp at h
          subst h
          have hcb : (c != []) = true := by simpa using hc
          simp only [List.filter_cons, hcb, List.map_cons, if_true]
          rw [parseFunc_name E m hvf0]
          simp [ih (idx + 1) vfs' hvfs']

theorem clauseLoop_errMsgs {Val : Type} (E : Env Val) (m : FuncsMap)
    (fname : Str) (fsDesc : Option (List Str)) (whole : Str) :
    ∀ (fs : List Str) (idx : Nat) (vfs : List ValidFunc),
      clauseLoop E m fname fsDesc whole fs idx = .ok vfs →
      vfs.map (fun vf => vf.errMsg) =
        ((fs.enumFrom idx).filter (fun p => p.2 != [])).map
          (fun p => descAt fsDesc whole p.1) := by
  intro fs
  induction fs with
  | nil =>
    intro idx vfs h
    simp [clauseLoop] at h
    subst h
    simp
  | cons c rest ih =>
    intro idx vfs h
    unfold clauseLoop at h
    split at h
    · rename_i hc
      subst hc
      simpa [List.enumFrom] using ih (idx + 1) vfs h
    · rename_i hc
      split at h
      · exact absurd h (by simp)
      · split at h
        · exact absurd h (by simp)
        · rename_i vf0 hvf0 x vfs' hvfs'
          simp at h
          subst h
          have hcb : (c != []) = true := by simpa using hc
          simp only [List.enumFrom, List.filter_cons, hcb, List.map_cons,
            if_true]
          rw [parseFunc_errMsg E m hvf0]
          simp [ih (idx + 1) vfs' hvfs']

/-- `getValidFuncs` on a nonempty trimmed tag runs the extraction pass,
splits the rewritten tag on `;`, and appends the loop's descriptors to the
extracted ones. -/
theorem getValidFuncs_split {Val : Type} (E : Env Val) (m : FuncsMap)
    {rawTag rawDesc fname : Str} {vfs : List ValidFunc}
    (h : getValidFuncs E m rawTag rawDesc fname = .ok vfs) :
    (trimSpace rawTag = [] ∧ vfs = []) ∨
    (∃ vfs0 tag' desc' vfs1,
      getRegFuncs E (trimSpace rawTag) (trimSpace rawDesc) fname =
        .ok (vfs0, tag', desc') ∧
      clauseLoop E m fname
        (if strContains desc' (str ";") = true then
          some (splitOnChar ';' desc') else none)
        desc' (splitOnChar ';' tag') 0 = .ok vfs1 ∧
      vfs = vfs0 ++ vfs1) := by
  unfold getValidFuncs at h
  dsimp only at h
  split at h
  · rename_i hlen
    simp at h
    exact .inl ⟨List.length_eq_zero.mp hlen, h⟩
  · split at h
    · exact absurd h (by simp)
    · rename_i trip heq
      split at h
      · exact absurd h (by simp)
      · rename_i vfs1 hloop
        simp at h
        exact .inr ⟨_, _, _, _, heq, hloop, h.symm⟩

/-- Everything the compiler emits against the start-up registry is
well-formed: dispatch will find a rule-method entry of matching arity. -/
theorem getValidFuncs_WF {Val : Type} (E : Env Val)
    {rawTag rawDesc fname : Str} {vfs : List ValidFunc}
    (h : getValidFuncs E funcs0 rawTag rawDesc fname = .ok vfs) :
    ∀ vf ∈ vfs, WFvf funcs0 vf := by
  intro vf hm
  rcases getValidFuncs_split E funcs0 h with ⟨_, hnil⟩ |
    ⟨vfs0, tag', desc', vfs1, hreg, hloop, hsplit⟩
  · subst hnil
    simp at hm
  · subst hsplit
    rcases List.mem_append.mp hm with hh | hh
    · rcases getRegFuncs_ok_shape E hreg with hnil | ⟨pat, rdt, hvfs0⟩
      · subst hnil
        simp at hh
      · subst hvfs0
        simp at hh
        subst hh
        exact ⟨⟨5, [.pregex, .pstr, .pstr], .validator⟩, rfl, rfl, rfl⟩
    · obtain ⟨c, d, hparse⟩ := clauseLoop_parsed E funcs0 fname _ desc' _ 0
        vfs1 hloop vf hh
      obtain ⟨hlast, fe, hfe, hlen⟩ := parseFunc_ok_shape E funcs0 hparse
      have hpos : vf.params ≠ [] := parseFunc_params_pos E funcs0 hparse
      have hlp : 0 < vf.params.length := List.length_pos.mpr hpos
      exact ⟨fe, hfe, funcs0_validator hfe (by omega), hlen⟩

/-! ### Behavior of the per-rule and per-field loops -/

theorem runVFs_all_sat {Val : Type} (E : Env Val) (fld : Str) (obj : Val) :
    ∀ (vfs : List ValidFunc) (v : Validation Val),
      (∀ vf ∈ vfs, WFvf funcs0 vf) →
      (∀ vf ∈ vfs, satVF E obj vf = true) →
      v.errors = [] →
      runVFs E funcs0 fld obj vfs v =
        (v, vfs.map (fun vf => (fld, vf.name)), none) := by
  intro vfs
  induction vfs with
  | nil => intro v _ _ _; rfl
  | cons vf rest ih =>
    intro v hWF hsat hv
    have hs : (mkValidator E vf.name vf.params).isSatisfied obj = true :=
      hsat vf (by simp)
    unfold runVFs
    simp only [callF_WF E (hWF vf (by simp)) v obj,
      apply_sat E v vf.errMsg hs, hv,
      ih v (fun x hx => hWF x (by simp [hx]))
        (fun x hx => hsat x (by simp [hx])) hv,
      List.map_cons]

theorem runVFs_first_unsat {Val : Type} (E : Env Val) (fld : Str)
    (obj : Val) :
    ∀ (pre : List ValidFunc) (vf : ValidFunc) (post : List ValidFunc)
      (v : Validation Val),
      (∀ x ∈ pre ++ vf :: post, WFvf funcs0 x) →
      (∀ x ∈ pre, satVF E obj x = true) →
      satVF E obj vf = false →
      v.errors = [] →
      runVFs E funcs0 fld obj (pre ++ vf :: post) v =
        (v.setError (errVF E obj vf),
         pre.map (fun x => (fld, x.name)) ++ [(fld, vf.name)],
         some (.valErr (errVF E obj vf).message)) := by
  intro pre
  induction pre with
  | nil =>
    intro vf post v hWF hpre hunsat hv
    have hs : (mkValidator E vf.name vf.params).isSatisfied obj = false :=
      hunsat
    rw [List.nil_append]
    unfold runVFs
    simp only [callF_WF E (hWF vf (by simp)) v obj,
      apply_unsat E v vf.errMsg hs, setError_errors, hv, List.nil_append,
      List.map_nil]
    rfl
  | cons x pre' ih =>
    intro vf post v hWF hpre hunsat hv
    have hs : (mkValidator E x.name x.params).isSatisfied obj = true :=
      hpre x (by simp)
    rw [List.cons_append]
    unfold runVFs
    simp only [callF_WF E (hWF x (by simp)) v obj, apply_sat E v x.errMsg hs,
      hv,
      ih vf post v (fun y hy => hWF y (by simp [hy]))
        (fun y hy => hpre y (by simp [hy])) hunsat hv,
      List.map_cons, List.cons_append]

theorem validFields_all_sat {Val : Type} (E : Env Val)
    (cf : FieldS Val → List ValidFunc) :
    ∀ (fields : List (FieldS Val)) (v : Validation Val),
      (∀ f ∈ fields,
        getValidFuncs E funcs0 f.validTag f.vdescTag f.fname = .ok (cf f)) →
      (∀ f ∈ fields, ∀ vf ∈ cf f, satVF E f.value vf = true) →
      v.errors = [] →
      validFields E funcs0 fields v =
        (v,
         fields.flatMap (fun f => (cf f).map (fun vf => (f.fname, vf.name))),
         .ok) := by
  intro fields
  induction fields with
  | nil => intro v _ _ _; rfl
  | cons f rest ih =>
    intro v hcomp hsat hv
    unfold validFields
    simp only [hcomp f (by simp),
      runVFs_all_sat E f.fname f.value (cf f) v
        (getValidFuncs_WF E (hcomp f (by simp))) (hsat f (by simp)) hv,
      ih v (fun x hx => hcomp x (by simp [hx]))
        (fun x hx => hsat x (by simp [hx])) hv]
    simp

theorem validFields_first_unsat {Val : Type} (E : Env Val)
    (cf : FieldS Val → List ValidFunc) :
    ∀ (pre : List (FieldS Val)) (f0 : FieldS Val) (post : List (FieldS Val))
      (vpre : List ValidFunc) (vf0 : ValidFunc) (vpost : List ValidFunc)
      (v : Validation Val),
      (∀ f ∈ pre ++ f0 :: post,
        getValidFuncs E funcs0 f.validTag f.vdescTag f.fname = .ok (cf f)) →
      (∀ f ∈ pre, ∀ vf ∈ cf f, satVF E f.value vf = true) →
      cf f0 = vpre ++ vf0 :: vpost →
      (∀ vf ∈ vpre, satVF E f0.value vf = true) →
      satVF E f0.value vf0 = false →
      v.errors = [] →
      validFields E funcs0 (pre ++ f0 :: post) v =
        (v.setError (errVF E f0.value vf0),
         pre.flatMap (fun f => (cf f).map (fun vf => (f.fname, vf.name))) ++
           (vpre.map (fun vf => (f0.fname, vf.name)) ++
             [(f0.fname, vf0.name)]),
         .valErr (errVF E f0.value vf0).message) := by
  intro pre
  induction pre with
  | nil =>
    intro f0 post vpre vf0 vpost v hcomp hpre hcf hvpre hunsat hv
    rw [List.nil_append]
    unfold validFields
    have hc0 := hcomp f0 (by simp)
    rw [hcf] at hc0
    have hWF : ∀ x ∈ vpre ++ vf0 :: vpost, WFvf funcs0 x := by
      have hh := getValidFuncs_WF E (hcomp f0 (by simp))
      rw [hcf] at hh
      exact hh
    simp only [hc0,
      runVFs_first_unsat E f0.fname f0.value vpre vf0 vpost v hWF hvpre
        hunsat hv]
    simp
  | cons f pre' ih =>
    intro f0 post vpre vf0 vpost v hcomp hpre hcf hvpre hunsat hv
    rw [List.cons_append]
    unfold validFields
    simp only [hcomp f (by simp),
      runVFs_all_sat E f.fname f.value (cf f) v
        (getValidFuncs_WF E (hcomp f (by simp))) (hpre f (by simp)) hv,
      ih f0 post vpre vf0 vpost v (fun x hx => hcomp x (by simp [hx]))
        (fun x hx => hpre x (by simp [hx])) hcf hvpre hunsat hv]
    simp

theorem validFields_preexisting {Val : Type} (E : Env Val)
    (cf : FieldS Val → List ValidFunc) :
    ∀ (pre : List (FieldS Val)) (f0 : FieldS Val) (post : List (FieldS Val))
      (vf0 : ValidFunc) (vrest : List ValidFunc) (v : Validation Val)
      (e0 : Error Val) (erest : List (Error Val)),
      (∀ f ∈ pre ++ f0 :: post,
        getValidFuncs E funcs0 f.validTag f.vdescTag f.fname = .ok (cf f)) →
      (∀ f ∈ pre, cf f = []) →
      cf f0 = vf0 :: vrest →
      v.errors = e0 :: erest →
      (validFields E funcs0 (pre ++ f0 :: post) v).2 =
        ([(f0.fname, vf0.name)], .valErr e0.message) := by
  intro pre
  induction pre with
  | nil =>
    intro f0 post vf0 vrest v e0 erest hcomp hpre hcf hv
    rw [List.nil_append]
    unfold validFields
    have hc0 := hcomp f0 (by simp)
    rw [hcf] at hc0
    have hWF : ∀ x ∈ vf0 :: vrest, WFvf funcs0 x := by
      have hh := getValidFuncs_WF E (hcomp f0 (by simp))
      rw [hcf] at hh
      exact hh
    cases hs : (mkValidator E vf0.name vf0.params).isSatisfied f0.value with
    | true =>
      have hrun : runVFs E funcs0 f0.fname f0.value (vf0 :: vrest) v =
          (v, [(f0.fname, vf0.name)], some (.valErr e0.message)) := by
        unfold runVFs
        simp only [callF_WF E (hWF vf0 (by simp)) v f0.value,
          apply_sat E v vf0.errMsg hs, hv]
      simp only [hc0, hrun]
    | false =>
      have hrun : runVFs E funcs0 f0.fname f0.value (vf0 :: vrest) v =
          (v.setError (errVF E f0.value vf0), [(f0.fname, vf0.name)],
           some (.valErr e0.message)) := by
        unfold runVFs
        simp only [callF_WF E (hWF vf0 (by simp)) v f0.value,
          apply_unsat E v vf0.errMsg hs, setError_errors, hv,
          List.cons_append]
        rfl
      simp only [hc0, hrun]
  | cons f pre' ih =>
    intro f0 post vf0 vrest v e0 erest hcomp hpre hcf hv
    rw [List.cons_append]
    unfold validFields
    simp only [hcomp f (by simp), hpre f (by simp)]
    have hrec := ih f0 post vf0 vrest v e0 erest
      (fun x hx => hcomp x (by simp [hx]))
      (fun x hx => hpre x (by simp [hx])) hcf hv
    rcases hvf : validFields E funcs0 (pre' ++ f0 :: post) v with ⟨v', tr, out⟩
    rw [hvf] at hrec
    simp at hrec
    simp only [runVFs, hvf]
    simp [hrec]

theorem getRegFuncs_none {Val : Type} (E : Env Val) {tag : Str}
    (d key : Str) (h : strIndex tag (str "Match(/") = none) :
    getRegFuncs E tag d key = .ok ([], tag, d) := by
  unfold getRegFuncs
  rw [h]

/-- When the opener is present and `getRegFuncs` succeeds, the result is
fully determined: the last `/)` exists beyond the opener, the captured
pattern compiles, the descriptor list is the single keyed `Match` rule, and
the returned tag and description are the excised remnants and the rewritten
description. -/
theorem getRegFuncs_some_ok {Val : Type} (E : Env Val)
    {tag d key t' d' : Str} {vfs0 : List ValidFunc} {i : Nat}
    (hi : strIndex tag (str "Match(/") = some i)
    (h : getRegFuncs E tag d key = .ok (vfs0, t', d')) :
    ∃ e, strLastIndex tag (str "/)") = some e ∧ i + 7 ≤ e ∧
      E.regexValid (seg tag (i + 7) e) = true ∧
      vfs0 = [⟨str "Match", (regDescPair tag d).1,
              [.preg (seg tag (i + 7) e), .pstr (key ++ str ".Match")]⟩] ∧
      t' = trimSpace (tag.take i) ++ trimSpace (tag.drop (e + 2)) ∧
      d' = (regDescPair tag d).2 := by
  unfold getRegFuncs at h
  split at h
  · rename_i heq
    rw [hi] at heq
    exact absurd heq (by simp)
  · rename_i idx heq
    rw [hi] at heq
    have hidx : idx = i := by
      injection heq with hh
      exact hh.symm
    subst hidx
    split at h
    · exact absurd h (by simp)
    · rename_i e he
      split at h
      · exact absurd h (by simp)
      · rename_i h1
        split at h
        · exact absurd h (by simp)
        · rename_i h2
          split at h
          · rename_i hrv
            simp at h
            obtain ⟨ha, hb, hc⟩ := h
            exact ⟨e, he, by omega, hrv, ha.symm, hb.symm, hc.symm⟩
          · exact absurd h (by simp)

theorem clauseLoop_errMsg_const {Val : Type} (E : Env Val) (m : FuncsMap)
    (fname : Str) (whole : Str) :
    ∀ (fs : List Str) (idx : Nat) (vfs : List ValidFunc),
      clauseLoop E m fname none whole fs idx = .ok vfs →
      ∀ vf ∈ vfs, vf.errMsg = whole := by
  intro fs
  induction fs with
  | nil =>
    intro idx vfs h vf hm
    simp [clauseLoop] at h
    subst h
    simp at hm
  | cons c rest ih =>
    intro idx vfs h vf hm
    unfold clauseLoop at h
    split at h
    · exact ih (idx + 1) vfs h vf hm
    · split at h
      · exact absurd h (by simp)
      · split at h
        · exact absurd h (by simp)
        · rename_i vf0 hvf0 x vfs' hvfs'
          simp at h
          subst h
          rcases List.mem_cons.mp hm with hh | hh
          · subst hh
            exact parseFunc_errMsg E m hvf0
          · exact ih (idx + 1) vfs' hvfs' vf hh

/-! ### Claim C2: compiled order versus declaration order -/

/-- C2, counterexample: for the annotation `Required;Match(/a/)` the
declaration order of clauses is `Required`, `Match`, but the extraction
pass hoists the `Match` descriptor to the front, so the compiled (and hence
executed) order is `Match`, `Required` — not the declaration order the
claim states for a `Match(/...)` clause that is not first. -/
theorem claim_C2_cex :
    getValidFuncs envW funcs0 (str "Required;Match(/a/)") [] (str "F") =
      .ok [⟨str "Match", [], [.preg (str "a"), .pstr (str "F.Match")]⟩,
           ⟨str "Required", [], [.pstr (str "F.Required")]⟩] ∧
    (splitOnChar ';' (str "Required;Match(/a/)")).map clauseName =
      [str "Required", str "Match"] ∧
    [str "Match", str "Required"] ≠ [str "Required", str "Match"] := by
  refine ⟨by decide, by decide, by decide⟩

/-- C2, amended: when the annotation contains no `Match(/` sub-term, the
compiled descriptors are in clause declaration order (skipped empty clauses
aside); when it does, the extracted `Match` descriptor is compiled *first*
and the remaining clauses of the excised annotation follow in their
declaration order after it; the engine dispatches rules exactly in compiled
order. -/
theorem claim_C2 {Val : Type} (E : Env Val) :
    (∀ (m : FuncsMap) (rawTag rawDesc fname : Str) (vfs : List ValidFunc),
      getValidFuncs E m rawTag rawDesc fname = .ok vfs →
      strIndex (trimSpace rawTag) (str "Match(/") = none →
      vfs.map (fun vf => vf.name) =
        ((splitOnChar ';' (trimSpace rawTag)).filter
          (fun c => c != [])).map clauseName) ∧
    (∀ (m : FuncsMap) (rawTag rawDesc fname : Str) (vfs : List ValidFunc)
       (i : Nat),
      getValidFuncs E m rawTag rawDesc fname = .ok vfs →
      strIndex (trimSpace rawTag) (str "Match(/") = some i →
      ∃ (e : Nat) (rest : List ValidFunc),
        strLastIndex (trimSpace rawTag) (str "/)") = some e ∧
        vfs =
          ⟨str "Match", (regDescPair (trimSpace rawTag) (trimSpace rawDesc)).1,
           [.preg (seg (trimSpace rawTag) (i + 7) e),
            .pstr (fname ++ str ".Match")]⟩ :: rest ∧
        rest.map (fun vf => vf.name) =
          ((splitOnChar ';'
            (trimSpace ((trimSpace rawTag).take i) ++
             trimSpace ((trimSpace rawTag).drop (e + 2)))).filter
            (fun c => c != [])).map clauseName) ∧
    (∀ (cf : FieldS Val → List ValidFunc) (fields : List (FieldS Val))
       (v : Validation Val),
      (∀ f ∈ fields,
        getValidFuncs E funcs0 f.validTag f.vdescTag f.fname = .ok (cf f)) →
      (∀ f ∈ fields, ∀ vf ∈ cf f, satVF E f.value vf = true) →
      v.errors = [] →
      (Validation.valid E funcs0 v (.struct fields)).2.1 =
        fields.flatMap
          (fun f => (cf f).map (fun vf => (f.fname, vf.name)))) := by
  refine ⟨?_, ?_, ?_⟩
  · intro m rawTag rawDesc fname vfs h hnone
    rcases getValidFuncs_split E m h with ⟨hnil, hvfs⟩ |
      ⟨vfs0, tag', desc', vfs1, hreg, hloop, hsplit⟩
    · subst hvfs
      rw [hnil]
      simp [splitOnChar]
    · rw [getRegFuncs_none E (trimSpace rawDesc) fname hnone] at hreg
      simp at hreg
      obtain ⟨h0, h1, h2⟩ := hreg
      subst h0
      subst h1
      subst h2
      rw [hsplit, List.nil_append]
      exact clauseLoop_names E m fname _ _ _ 0 vfs1 hloop
  · intro m rawTag rawDesc fname vfs i h hsome
    rcases getValidFuncs_split E m h with ⟨hnil, hvfs⟩ |
      ⟨vfs0, tag', desc', vfs1, hreg, hloop, hsplit⟩
    · rw [hnil] at hsome
      have hni : strIndex ([] : Str) (str "Match(/") = none := by decide
      rw [hni] at hsome
      exact absurd hsome (by simp)
    · obtain ⟨e, he, hle, hrv, h0, h1, h2⟩ := getRegFuncs_some_ok E hsome hreg
      subst h0 h1
      refine ⟨e, vfs1, he, by rw [hsplit]; rfl, ?_⟩
      exact clauseLoop_names E m fname _ desc' _ 0 vfs1 hloop
  · intro cf fields v hcomp hsat hv
    have h := validFields_all_sat E cf fields v hcomp hsat hv
    show (validFields E funcs0 fields v).2.1 = _
    rw [h]

/-- C2, witness: on `Required;Match(/a/)` the amended description holds
concretely — the `Match` descriptor for pattern `a` comes first, followed by
`Required`. -/
theorem claim_C2_witness :
    ∃ (e : Nat) (rest : List ValidFunc),
      strLastIndex (trimSpace (str "Required;Match(/a/)")) (str "/)") =
        some e ∧
      ([⟨str "Match", [], [.preg (str "a"), .pstr (str "F.Match")]⟩,
        ⟨str "Required", [], [.pstr (str "F.Required")]⟩] :
          List ValidFunc) =
        ⟨str "Match",
         (regDescPair (trimSpace (str "Required;Match(/a/)"))
           (trimSpace ([] : Str))).1,
         [.preg (seg (trimSpace (str "Required;Match(/a/)")) (9 + 7) e),
          .pstr (str "F" ++ str ".Match")]⟩ :: rest ∧
      rest.map (fun vf => vf.name) =
        List.map clauseName (List.filter (fun c => c != [])
          (splitOnChar ';'
            (trimSpace ((trimSpace (str "Required;Match(/a/)")).take 9) ++
             trimSpace
               ((trimSpace (str "Required;Match(/a/)")).drop (e + 2))))) :=
  (claim_C2 envW).2.1 funcs0 (str "Required;Match(/a/)") [] (str "F")
    [⟨str "Match", [], [.preg (str "a"), .pstr (str "F.Match")]⟩,
     ⟨str "Required", [], [.pstr (str "F.Required")]⟩]
    9 (by decide) (by decide)

/-! ### Claim C6: description assignment -/

/-- C6, counterexample: with annotation `Required;Match(/x/);Min(1)` and
descriptions `d0;d1;d2`, the claim says the remaining descriptions stay
aligned after the `Match` excision, so `Min(1)` should keep `d2`; but the
excised annotation keeps an empty clause at the `Match` position while the
description list is compacted, so `Min` receives the empty description. -/
theorem claim_C6_cex :
    getValidFuncs envW funcs0 (str "Required;Match(/x/);Min(1)")
      (str "d0;d1;d2") (str "F") =
      .ok [⟨str "Match", str "d1", [.preg (str "x"), .pstr (str "F.Match")]⟩,
           ⟨str "Required", str "d0", [.pstr (str "F.Required")]⟩,
           ⟨str "Min", [], [.pint 1, .pstr (str "F.Min")]⟩] ∧
    ([] : Str) ≠ str "d2" := by
  refine ⟨by decide, by decide⟩

/-- C6, amended: with no `Match` extraction, a description without `;` is
applied (whitespace-trimmed) verbatim to every compiled clause of the
field, and a `;`-separated description is assigned positionally by raw
split index (empty clauses consume an index; a clause whose index is past
the list gets the empty description); at execution time a failing rule's
message is its description when nonempty after trimming, else the
predicate's default.  When a `Match` clause is excised: with a single
(no-`;`) description the `Match` rule receives it and every other clause
receives the empty description; with `;`-separated descriptions the index
pointing at the `Match` clause is removed and the rest re-joined, which
keeps alignment when the `Match` clause is first or last, but shifts the
descriptions of the clauses after an interior `Match` by one (the last
losing its description), as the concrete cases show. -/
theorem claim_C6 {Val : Type} (E : Env Val) :
    (∀ (m : FuncsMap) (rawTag rawDesc fname : Str) (vfs : List ValidFunc),
      getValidFuncs E m rawTag rawDesc fname = .ok vfs →
      strIndex (trimSpace rawTag) (str "Match(/") = none →
      strContains (trimSpace rawDesc) (str ";") = false →
      ∀ vf ∈ vfs, ValidFunc.errMsg vf = trimSpace rawDesc) ∧
    (∀ (m : FuncsMap) (rawTag rawDesc fname : Str) (vfs : List ValidFunc),
      getValidFuncs E m rawTag rawDesc fname = .ok vfs →
      strIndex (trimSpace rawTag) (str "Match(/") = none →
      strContains (trimSpace rawDesc) (str ";") = true →
      vfs.map (fun vf => vf.errMsg) =
        (((splitOnChar ';' (trimSpace rawTag)).enumFrom 0).filter
          (fun p => p.2 != [])).map
          (fun p => descAt (some (splitOnChar ';' (trimSpace rawDesc)))
            (trimSpace rawDesc) p.1)) ∧
    (∀ (obj : Val) (vf : ValidFunc),
      (errVF E obj vf).message =
        if trimSpace vf.errMsg = [] then
          (mkValidator E vf.name vf.params).defaultMessage
        else vf.errMsg) ∧
    (getValidFuncs envW funcs0 (str "Required;Match(/x/)") (str "dd")
        (str "F") =
      .ok [⟨str "Match", str "dd", [.preg (str "x"), .pstr (str "F.Match")]⟩,
           ⟨str "Required", [], [.pstr (str "F.Required")]⟩]) ∧
    (getValidFuncs envW funcs0 (str "Match(/x/);Required;Min(1)")
        (str "d0;d1;d2") (str "F") =
      .ok [⟨str "Match", str "d0", [.preg (str "x"), .pstr (str "F.Match")]⟩,
           ⟨str "Required", str "d1", [.pstr (str "F.Required")]⟩,
           ⟨str "Min", str "d2", [.pint 1, .pstr (str "F.Min")]⟩]) ∧
    (getValidFuncs envW funcs0 (str "Required;Match(/x/)") (str "d0;d1")
        (str "F") =
      .ok [⟨str "Match", str "d1", [.preg (str "x"), .pstr (str "F.Match")]⟩,
           ⟨str "Required", str "d0", [.pstr (str "F.Required")]⟩]) ∧
    (getValidFuncs envW funcs0 (str "Required;Match(/x/);Min(1)")
        (str "d0;d1;d2") (str "F") =
      .ok [⟨str "Match", str "d1", [.preg (str "x"), .pstr (str "F.Match")]⟩,
           ⟨str "Required", str "d0", [.pstr (str "F.Required")]⟩,
           ⟨str "Min", [], [.pint 1, .pstr (str "F.Min")]⟩]) := by
  refine ⟨?_, ?_, fun obj vf => rfl, by decide, by decide, by decide,
    by decide⟩
  · intro m rawTag rawDesc fname vfs h hnone hsc
    rcases getValidFuncs_split E m h with ⟨hnil, hvfs⟩ |
      ⟨vfs0, tag', desc', vfs1, hreg, hloop, hsplit⟩
    · subst hvfs
      intro vf hm
      simp at hm
    · rw [getRegFuncs_none E (trimSpace rawDesc) fname hnone] at hreg
      simp at hreg
      obtain ⟨h0, h1, h2⟩ := hreg
      subst h0
      subst h1
      subst h2
      rw [hsc] at hloop
      simp only [Bool.false_eq_true, if_false] at hloop
      rw [hsplit, List.nil_append]
      exact clauseLoop_errMsg_const E m fname _ _ 0 vfs1 hloop
  · intro m rawTag rawDesc fname vfs h hnone hsc
    rcases getValidFuncs_split E m h with ⟨hnil, hvfs⟩ |
      ⟨vfs0, tag', desc', vfs1, hreg, hloop, hsplit⟩
    · subst hvfs
      rw [hnil]
      simp [splitOnChar, List.enumFrom]
    · rw [getRegFuncs_none E (trimSpace rawDesc) fname hnone] at hreg
      simp at hreg
      obtain ⟨h0, h1, h2⟩ := hreg
      subst h0
      subst h1
      subst h2
      rw [hsc] at hloop
      simp only [if_true] at hloop
      rw [hsplit, List.nil_append]
      exact clauseLoop_errMsgs E m fname _ _ _ 0 vfs1 hloop

/-- C6, witness: with annotation `Required;Min(1)` and the single
description ` dd `, both compiled clauses carry the trimmed description
`dd`. -/
theorem claim_C6_witness :
    ∀ vf ∈ [(⟨str "Required", str "dd", [.pstr (str "F.Required")]⟩ :
              ValidFunc),
            ⟨str "Min", str "dd", [.pint 1, .pstr (str "F.Min")]⟩],
      ValidFunc.errMsg vf = trimSpace (str " dd ") :=
  (claim_C6 envW).1 funcs0 (str "Required;Min(1)") (str " dd ") (str "F")
    _ (by decide) (by decide) (by decide)

/-! ### Claim C1: first-failure-wins over a fresh context -/

/-- C1: starting from a context with no recorded errors, on a record whose
annotations all compile, `Valid` dispatches rules in field-then-rule order;
if every rule of every field is satisfied it returns nil having dispatched
them all, and at the first rule whose predicate is not satisfied it records
that rule's error, returns exactly that error's message, and dispatches
nothing further — no later rule of that field and no subsequent field (the
trace ends at the failing rule).  The failing rule's message is its
description when nonempty after trimming, else the predicate's default. -/
theorem claim_C1 {Val : Type} (E : Env Val) (cf : FieldS Val → List ValidFunc)
    (fields : List (FieldS Val)) (v : Validation Val)
    (hcomp : ∀ f ∈ fields,
      getValidFuncs E funcs0 f.validTag f.vdescTag f.fname = .ok (cf f))
    (hv : v.errors = []) :
    ((∀ f ∈ fields, ∀ vf ∈ cf f, satVF E f.value vf = true) →
      Validation.valid E funcs0 v (.struct fields) =
        (v,
         fields.flatMap (fun f => (cf f).map (fun vf => (f.fname, vf.name))),
         .ok)) ∧
    (∀ (pre : List (FieldS Val)) (f0 : FieldS Val) (post : List (FieldS Val))
       (vpre : List ValidFunc) (vf0 : ValidFunc) (vpost : List ValidFunc),
      fields = pre ++ f0 :: post →
      (∀ f ∈ pre, ∀ vf ∈ cf f, satVF E f.value vf = true) →
      cf f0 = vpre ++ vf0 :: vpost →
      (∀ vf ∈ vpre, satVF E f0.value vf = true) →
      satVF E f0.value vf0 = false →
      Validation.valid E funcs0 v (.struct fields) =
        (v.setError (errVF E f0.value vf0),
         pre.flatMap (fun f => (cf f).map (fun vf => (f.fname, vf.name))) ++
           (vpre.map (fun vf => (f0.fname, vf.name)) ++
             [(f0.fname, vf0.name)]),
         .valErr (errVF E f0.value vf0).message)) ∧
    (∀ (obj : Val) (vf : ValidFunc),
      (errVF E obj vf).message =
        if trimSpace vf.errMsg = [] then
          (mkValidator E vf.name vf.params).defaultMessage
        else vf.errMsg) := by
  refine ⟨fun hsat => validFields_all_sat E cf fields v hcomp hsat hv,
    ?_, fun obj vf => rfl⟩
  intro pre f0 post vpre vf0 vpost hfe hpre hcf hvpre hunsat
  subst hfe
  exact validFields_first_unsat E cf pre f0 post vpre vf0 vpost v hcomp hpre
    hcf hvpre hunsat hv

/-- C1, witness: field `A` (value 3) passes `Required`, field `B` (value 0)
fails `Min(1)` with description `dB`, and field `C` is never dispatched. -/
theorem claim_C1_witness :
    Validation.valid envW funcs0 (Validation.fresh Nat)
      (.struct [⟨str "A", str "Required", str "dA", 3⟩,
                ⟨str "B", str "Min(1)", str "dB", 0⟩,
                ⟨str "C", str "Required", str "dC", 5⟩]) =
      ((Validation.fresh Nat).setError
        (errVF envW 0 ⟨str "Min", str "dB", [.pint 1, .pstr (str "B.Min")]⟩),
       [(str "A", str "Required"), (str "B", str "Min")],
       .valErr (str "dB")) := by
  have h := (claim_C1 envW cfW
      [⟨str "A", str "Required", str "dA", 3⟩,
       ⟨str "B", str "Min(1)", str "dB", 0⟩,
       ⟨str "C", str "Required", str "dC", 5⟩]
      (Validation.fresh Nat) (by decide) rfl).2.1
      [⟨str "A", str "Required", str "dA", 3⟩]
      ⟨str "B", str "Min(1)", str "dB", 0⟩
      [⟨str "C", str "Required", str "dC", 5⟩]
      [] ⟨str "Min", str "dB", [.pint 1, .pstr (str "B.Min")]⟩ []
      rfl (by decide) (by decide) (by decide) (by decide)
  rw [h]
  decide

/-! ### Claim C10: the early-exit test inspects the whole context -/

/-- C10: the early-exit check after each dispatched rule reads the whole
context (`HasErrors` / `Errors[0]`), not the rule's own result: if the
context already holds errors when `Valid` starts, then as soon as the first
field carrying at least one compiled rule dispatches its first rule, `Valid`
returns the message of the pre-existing first error — whether or not that
rule was satisfied — and nothing further is dispatched. -/
theorem claim_C10 {Val : Type} (E : Env Val)
    (cf : FieldS Val → List ValidFunc)
    (pre : List (FieldS Val)) (f0 : FieldS Val) (post : List (FieldS Val))
    (vf0 : ValidFunc) (vrest : List ValidFunc) (v : Validation Val)
    (e0 : Error Val) (erest : List (Error Val))
    (hcomp : ∀ f ∈ pre ++ f0 :: post,
      getValidFuncs E funcs0 f.validTag f.vdescTag f.fname = .ok (cf f))
    (hpre : ∀ f ∈ pre, cf f = [])
    (hcf : cf f0 = vf0 :: vrest)
    (hv : v.errors = e0 :: erest) :
    (Validation.valid E funcs0 v (.struct (pre ++ f0 :: post))).2 =
      ([(f0.fname, vf0.name)], .valErr e0.message) :=
  validFields_preexisting E cf pre f0 post vf0 vrest v e0 erest hcomp hpre
    hcf hv

/-- C10, witness: a context pre-populated with an error with message `old`
makes `Valid` return `old` right after dispatching field `A`'s satisfied
`Required` rule, skipping the failing field `B` entirely. -/
theorem claim_C10_witness :
    (Validation.valid envW funcs0
      ⟨[⟨str "old", [], [], [], [], none, none⟩], none⟩
      (.struct [⟨str "Z", [], [], 9⟩,
                ⟨str "A", str "Required", [], 3⟩,
                ⟨str "B", str "Min(1)", [], 0⟩])).2 =
      ([(str "A", str "Required")], .valErr (str "old")) := by
  have h := claim_C10 envW cfW
      [⟨str "Z", [], [], 9⟩]
      ⟨str "A", str "Required", [], 3⟩
      [⟨str "B", str "Min(1)", [], 0⟩]
      ⟨str "Required", [], [.pstr (str "A.Required")]⟩ []
      ⟨[⟨str "old", [], [], [], [], none, none⟩], none⟩
      ⟨str "old", [], [], [], [], none, none⟩ []
      (by decide) (by decide) (by decide) rfl
  simp only [List.cons_append, List.nil_append] at h
  rw [h]

/-! ### Claim C5: greedy extraction of the `Match(/.../)` sub-term -/

/-- C5: when the annotation contains `Match(/` (first occurrence at `i`)
and the last `/)` of the whole string starts at `e` beyond the opener, the
extraction pass captures verbatim exactly the text between them — which may
itself contain parentheses and semicolons — as the pattern of a `Match`
descriptor, and excises the sub-term (the trimmed remnants around it become
the annotation the splitter will see); if that captured pattern is not a
valid regular expression, compilation fails; and if the last `/)` lies
before the first `Match(/`, or there is no `/)` at all, compilation fails
with the invalid-Match error. -/
theorem claim_C5 {Val : Type} (E : Env Val) (tag dsc key : Str) (i : Nat)
    (hfirst : FirstOccAt tag (str "Match(/") i) :
    (∀ e, LastOccAt tag (str "/)") e → i + 7 ≤ e →
      E.regexValid (seg tag (i + 7) e) = true →
      ∃ rdt d',
        getRegFuncs E tag dsc key =
          .ok ([⟨str "Match", rdt,
                 [.preg (seg tag (i + 7) e), .pstr (key ++ str ".Match")]⟩],
               trimSpace (tag.take i) ++ trimSpace (tag.drop (e + 2)), d')) ∧
    (∀ e, LastOccAt tag (str "/)") e → i + 7 ≤ e →
      E.regexValid (seg tag (i + 7) e) = false →
      getRegFuncs E tag dsc key = .error (.regexErr (seg tag (i + 7) e))) ∧
    (∀ e, LastOccAt tag (str "/)") e → e < i →
      getRegFuncs E tag dsc key = .error .invalidMatch) ∧
    ((∀ j ≤ tag.length, ¬ OccursAt tag (str "/)") j) →
      getRegFuncs E tag dsc key = .error .invalidMatch) := by
  have hidx : strIndex tag (str "Match(/") = some i := strIndex_iff.mpr hfirst
  refine ⟨?_, ?_, ?_, ?_⟩
  · intro e hlast hle hrv
    have hl : strLastIndex tag (str "/)") = some e := strLastIndex_iff.mpr hlast
    unfold getRegFuncs
    simp only [hidx, hl]
    rw [if_neg (by omega : ¬ e < i), if_neg (by omega : ¬ e < i + 7)]
    rw [if_pos hrv]
    exact ⟨_, _, rfl⟩
  · intro e hlast hle hrv
    have hl : strLastIndex tag (str "/)") = some e := strLastIndex_iff.mpr hlast
    unfold getRegFuncs
    simp only [hidx, hl]
    rw [if_neg (by omega : ¬ e < i), if_neg (by omega : ¬ e < i + 7)]
    rw [if_neg (by simp [hrv])]
  · intro e hlast hlt
    have hl : strLastIndex tag (str "/)") = some e := strLastIndex_iff.mpr hlast
    unfold getRegFuncs
    simp only [hidx, hl]
    rw [if_pos hlt]
  · intro hno
    have hl : strLastIndex tag (str "/)") = none :=
      strLastIndex_eq_none_iff.mpr hno
    unfold getRegFuncs
    simp only [hidx, hl]

/-- C5, witness: in `Min(1);Match(/a(b;c/)` the opener is first at 7, the
last `/)` starts at 19, and extraction captures `a(b;c` — which contains
both a parenthesis and a semicolon — leaving `Min(1);`. -/
theorem claim_C5_witness :
    FirstOccAt (str "Min(1);Match(/a(b;c/)") (str "Match(/") 7 ∧
    LastOccAt (str "Min(1);Match(/a(b;c/)") (str "/)") 19 ∧
    seg (str "Min(1);Match(/a(b;c/)") 14 19 = str "a(b;c" ∧
    ∃ rdt d',
      getRegFuncs envW (str "Min(1);Match(/a(b;c/)") [] (str "F") =
        .ok ([⟨str "Match", rdt,
               [.preg (seg (str "Min(1);Match(/a(b;c/)") 14 19),
                .pstr (str "F" ++ str ".Match")]⟩],
             trimSpace ((str "Min(1);Match(/a(b;c/)").take 7) ++
               trimSpace ((str "Min(1);Match(/a(b;c/)").drop 21), d') := by
  have h := claim_C5 envW (str "Min(1);Match(/a(b;c/)") [] (str "F") 7
    (by decide)
  exact ⟨by decide, by decide, by decide,
    h.1 19 (by decide) (by decide) (by decide)⟩

/-! ### Claim C3: reserved names in `AddCustomFunc` -/

/-- C3, counterexample: the claim's reserved set is `Clear`, `HasErrors`,
`ErrorMap`, `Error`, `Valid` and the internal apply/check helpers, and every
other name is said to register successfully — but `AddCustomFunc` also
rejects `NoMatch`, which is none of those. -/
theorem claim_C3_cex :
    AddCustomFunc funcs0 (str "NoMatch") 0 =
      .error (.invalidName (str "NoMatch")) ∧
    str "NoMatch" ∉
      [str "Clear", str "HasErrors", str "ErrorMap", str "Error",
       str "Valid", str "apply", str "Check"] := by
  constructor
  · rfl
  · decide

/-- C3, amended: `AddCustomFunc(name, fn)` fails exactly when `name` is in
`unFuncs` (the infrastructure operations `Clear`, `HasErrors`, `ErrorMap`,
`Error`, `Valid`, the internal helpers `apply` and `Check`, and also the
rule name `NoMatch`); for every other name, including an already-registered
one, it succeeds, the new entry is what subsequent lookups of that name see
(last-write-wins), and no other name's entry changes. -/
theorem claim_C3 (m : FuncsMap) (name : Str) (id : Nat) :
    ((∃ e, AddCustomFunc m name id = .error e) ↔ name ∈ unFuncs) ∧
    (name ∉ unFuncs →
      AddCustomFunc m name id =
        .ok (insertA m name ⟨3, [.pstr], .custom id⟩) ∧
      lookupA (insertA m name ⟨3, [.pstr], .custom id⟩) name =
        some ⟨3, [.pstr], .custom id⟩ ∧
      ∀ k, k ≠ name →
        lookupA (insertA m name ⟨3, [.pstr], .custom id⟩) k = lookupA m k) := by
  constructor
  · constructor
    · rintro ⟨e, he⟩
      unfold AddCustomFunc at he
      by_cases h : unFuncs.contains name
      · exact List.elem_iff.mp h
      · rw [if_neg h] at he
        exact absurd he (by simp)
    · intro h
      refine ⟨.invalidName name, ?_⟩
      unfold AddCustomFunc
      rw [if_pos (List.elem_iff.mpr h)]
  · intro h
    have hc : ¬ unFuncs.contains name = true := fun hc =>
      h (List.elem_iff.mp hc)
    refine ⟨?_, lookupA_insertA_self name _ m, fun k hk =>
      lookupA_insertA_ne hk _ m⟩
    unfold AddCustomFunc
    rw [if_neg hc]

/-- C3, witness: registering the unreserved name `Mine` into the empty
registry succeeds with exactly the inserted entry. -/
theorem claim_C3_witness :
    str "Mine" ∉ unFuncs ∧
    AddCustomFunc [] (str "Mine") 5 =
      .ok [(str "Mine", ⟨3, [.pstr], .custom 5⟩)] := by
  have h := claim_C3 [] (str "Mine") 5
  exact ⟨by decide, (h.2 (by decide)).1⟩

/-! ### Claim C7: first-wins error aggregation -/

/-- C7: the context invariant — `ErrorsMap[f]` is the earliest-recorded
error with field `f` — holds of a fresh context and is preserved by
`setError` (hence by failing rule applications and by `SetError`, which
both route through it); an error for an already-mapped field is appended to
`Errors` without overwriting the map entry; and `Validation.Error` appends
to `Errors` while leaving `ErrorsMap` entirely untouched. -/
theorem claim_C7 {Val : Type} (E : Env Val) :
    MapInv (Validation.fresh Val) ∧
    (∀ (v : Validation Val) (e : Error Val),
      MapInv v → MapInv (v.setError e)) ∧
    (∀ (v : Validation Val) (e : Error Val) (f : Str) (e0 : Error Val),
      v.mapAt f = some e0 → (v.setError e).mapAt f = some e0) ∧
    (∀ (v : Validation Val) (e : Error Val),
      (v.setError e).errors = v.errors ++ [e]) ∧
    (∀ (v : Validation Val) (msg : Str),
      (v.errorOp msg).1.errorsMap = v.errorsMap ∧
      (v.errorOp msg).1.errors =
        v.errors ++ [⟨msg, [], [], [], [], none, none⟩]) ∧
    (∀ (v : Validation Val) (chk : Validator Val) (obj : Val) (d : Str),
      chk.isSatisfied obj = false →
      (Validation.apply E v chk obj d).1 =
        v.setError (mkApplyErr E chk obj d)) ∧
    (∀ (v : Validation Val) (f msg : Str),
      (v.setErrorField f msg).1 =
        v.setError ⟨msg, f, [], f, msg, none, none⟩) := by
  refine ⟨mapInv_fresh Val, fun v e h => mapInv_setError e h,
    fun v e f e0 h => mapAt_setError_of_some e h,
    fun v e => rfl, fun v msg => ⟨rfl, rfl⟩,
    fun v chk obj d h => ?_, fun v f msg => rfl⟩
  simp [Validation.apply, h]

/-- C7, witness: the invariant instantiated on a fresh context receiving
one concrete error. -/
theorem claim_C7_witness :
    MapInv ((Validation.fresh Nat).setError
      ⟨str "m", str "F.R", str "R", str "F", [], some 0, none⟩) :=
  (claim_C7 envW).2.1 _ _ (fun _ => rfl)

/-! ### Claim C9: `Result.Key` and `Result.Message` are no-ops on success -/

/-- C9: a `Result` carrying no error — the shape `apply` returns for every
satisfied check — is left entirely unchanged by `Key` and `Message`, so
chaining them is safe; on the failing `Result` of an unsatisfied check they
set the underlying error's key and message respectively. -/
theorem claim_C9 {Val : Type} (E : Env Val) :
    (∀ (r : Result Val) (k m : Str), r.error = none →
      r.setKey k = r ∧ r.setMessage m = r) ∧
    (∀ (v : Validation Val) (chk : Validator Val) (obj : Val) (d : Str),
      chk.isSatisfied obj = true →
      (Validation.apply E v chk obj d).2 = ⟨none, true⟩) ∧
    (∀ (v : Validation Val) (chk : Validator Val) (obj : Val) (d : Str),
      chk.isSatisfied obj = false →
      (Validation.apply E v chk obj d).2.ok = false ∧
      (Validation.apply E v chk obj d).2.error =
        some (mkApplyErr E chk obj d) ∧
      (∀ k, ((Validation.apply E v chk obj d).2.setKey k).error =
        some { mkApplyErr E chk obj d with key := k }) ∧
      (∀ m, ((Validation.apply E v chk obj d).2.setMessage m).error =
        some { mkApplyErr E chk obj d with message := m })) := by
  refine ⟨fun r k m h => ⟨?_, ?_⟩, fun v chk obj d h => ?_,
    fun v chk obj d h => ?_⟩
  · simp [Result.setKey, h]
  · simp [Result.setMessage, h]
  · simp [Validation.apply, h]
  · refine ⟨?_, ?_, fun k => ?_, fun m => ?_⟩ <;>
      simp [Validation.apply, h, Result.setKey, Result.setMessage]

/-- C9, witness: chaining on a concrete successful result leaves it intact,
and on a concrete failing `Required` application it rewrites the key. -/
theorem claim_C9_witness :
    ((⟨none, true⟩ : Result Nat).setKey (str "k") = ⟨none, true⟩) ∧
    ((Validation.apply envW (Validation.fresh Nat)
        (mkValidator envW (str "Required") [.pstr (str "A.Required")])
        0 (str "d")).2.setKey (str "k")).error =
      some { mkApplyErr envW
        (mkValidator envW (str "Required") [.pstr (str "A.Required")])
        0 (str "d") with key := str "k" } := by
  have h := claim_C9 envW
  exact ⟨(h.1 ⟨none, true⟩ (str "k") (str "m") rfl).1,
    (h.2.2 (Validation.fresh Nat) _ 0 (str "d") (by decide)).2.2.1 (str "k")⟩

end validation
